import Mathlib

/-!
# Verification of the tolerant JSON-object extractor

This file gives a shallow embedding of `_parse_strict_json_object` (the
tolerant JSON-object extractor repeated in `validation_ai.py` and
`daily_brief.py`) together with the parts of the Python standard library it
relies on (`json.loads`, `str.strip`, `str.split`, `str.splitlines`,
`str.find`, `str.lower`), and proves the specified properties of the
extractor over this embedding.

Modelling notes:
* JSON values are the inductive type `Json`.  Object members are kept as an
  association list; parsing inserts members with Python `dict` semantics
  (a repeated key overwrites the value in place, keeping the original
  position).
* Numbers are kept syntactically: sign, integer part, fractional digits and
  optional exponent, exactly as delimited by the grammar used by
  `json.loads`.  The nonstandard `NaN`/`Infinity` extension of the Python
  decoder is not modelled.
* Strings are Lean `String`s (sequences of unicode scalar values).  A
  `\uXXXX` escape that is a lone surrogate is rejected by the model, since a
  lone surrogate is not a scalar value.
* The decoder is strict, as `json.loads` is: unescaped control characters
  below `0x20` inside string literals are rejected.
* Recursion in the decoder and in the extractor's outer brace-scanning loop
  is expressed with explicit fuel; the entry points supply `length + 1`
  fuel, which is always sufficient (claim C10 proves the outer loop's fuel
  irrelevance above this bound).
-/

set_option maxHeartbeats 1000000

/-- A JSON value, as produced by the Python `json` decoder.  Numbers are
kept in the syntactic form delimited by the decoder's number grammar:
sign, integer part, fractional digits, optional exponent. -/
inductive Json where
  | null : Json
  | bool (b : Bool) : Json
  | num (neg : Bool) (ip : Nat) (frac : List (Fin 10)) (exp : Option Int) : Json
  | str (s : String) : Json
  | arr (xs : List Json) : Json
  | obj (members : List (String × Json)) : Json
deriving Repr

/-- The whitespace characters skipped between JSON tokens by `json.loads`. -/
def isWsJson (c : Char) : Bool :=
  c = ' ' || c = '\t' || c = '\n' || c = '\r'

/-- Skip JSON inter-token whitespace. -/
def skipWs (cs : List Char) : List Char :=
  cs.dropWhile isWsJson

/-- ASCII decimal digit test, as used by the decoder's number grammar. -/
def isDigitChar (c : Char) : Bool :=
  '0' ≤ c && c ≤ '9'

/-- Value of a hexadecimal digit, for `\uXXXX` escapes. -/
def hexVal (c : Char) : Option Nat :=
  if '0' ≤ c && c ≤ '9' then some (c.toNat - 48)
  else if 'a' ≤ c && c ≤ 'f' then some (c.toNat - 87)
  else if 'A' ≤ c && c ≤ 'F' then some (c.toNat - 55)
  else none

/-- Parse exactly four hexadecimal digits (the payload of a `\uXXXX`
escape), returning their value and the rest of the input. -/
def parseHex4 : List Char → Option (Nat × List Char)
  | a :: b :: c :: d :: rest =>
    match hexVal a, hexVal b, hexVal c, hexVal d with
    | some va, some vb, some vc, some vd =>
      some (va * 4096 + vb * 256 + vc * 16 + vd, rest)
    | _, _, _, _ => none
  | _ => none

/-- Body of a JSON string literal (the part after the opening quote), with
escape processing; returns the decoded string and the input after the
closing quote.  Strict mode: raw control characters below `0x20` are
rejected.  Surrogate pairs in `\uXXXX` escapes are combined; lone
surrogates are rejected (see module notes). -/
def parseStrBody : Nat → List Char → List Char → Option (String × List Char)
  | 0, _, _ => none
  | f + 1, cs, acc =>
    match cs with
    | [] => none
    | c :: rest =>
    if c = '"' then some (String.mk acc.reverse, rest)
    else if c = '\\' then
      match rest with
      | [] => none
      | e :: rest2 =>
        if e = '"' then parseStrBody f rest2 ('"' :: acc)
        else if e = '\\' then parseStrBody f rest2 ('\\' :: acc)
        else if e = '/' then parseStrBody f rest2 ('/' :: acc)
        else if e = 'b' then parseStrBody f rest2 ('\x08' :: acc)
        else if e = 'f' then parseStrBody f rest2 ('\x0c' :: acc)
        else if e = 'n' then parseStrBody f rest2 ('\n' :: acc)
        else if e = 'r' then parseStrBody f rest2 ('\r' :: acc)
        else if e = 't' then parseStrBody f rest2 ('\t' :: acc)
        else if e = 'u' then
          match parseHex4 rest2 with
          | none => none
          | some (n, rest3) =>
            if 0xD800 ≤ n && n ≤ 0xDBFF then
              match rest3 with
              | '\\' :: 'u' :: rest4 =>
                match parseHex4 rest4 with
                | none => none
                | some (m, rest5) =>
                  if 0xDC00 ≤ m && m ≤ 0xDFFF then
                    parseStrBody f rest5
                      (Char.ofNat (0x10000 + (n - 0xD800) * 0x400 + (m - 0xDC00)) :: acc)
                  else none
              | _ => none
            else if 0xDC00 ≤ n && n ≤ 0xDFFF then none
            else parseStrBody f rest3 (Char.ofNat n :: acc)
        else none
    else if c.toNat < 0x20 then none
    else parseStrBody f rest (c :: acc)

/-- Fractional digit as an element of `Fin 10`. -/
def digitFin (c : Char) : Fin 10 :=
  ⟨(c.toNat - 48) % 10, Nat.mod_lt _ (by decide)⟩

/-- Value of a list of decimal digit characters. -/
def natFromDigits (ds : List Char) : Nat :=
  ds.foldl (fun n c => n * 10 + (c.toNat - 48)) 0

/-- Greedily take the leading run of decimal digits. -/
def splitDigits (cs : List Char) : List Char × List Char :=
  (cs.takeWhile isDigitChar, cs.dropWhile isDigitChar)

/-- Optional sign in front of an exponent's digits. -/
def parseSign (cs : List Char) : Int × List Char :=
  match cs with
  | '+' :: rr => (1, rr)
  | '-' :: rr => (-1, rr)
  | _ => (1, cs)

/-- Optional exponent part `[eE][+-]?digits` of a JSON number; if the
exponent is absent or malformed, nothing is consumed (the number grammar's
exponent group simply does not match). -/
def parseExpPart (cs : List Char) : Option Int × List Char :=
  match cs with
  | e :: r =>
    if e = 'e' || e = 'E' then
      let (sgn, r2) := parseSign r
      match splitDigits r2 with
      | ([], _) => (none, cs)
      | (ds, r3) => (some (sgn * (natFromDigits ds : Int)), r3)
    else (none, cs)
  | [] => (none, cs)

/-- Leading minus sign of a JSON number, if present. -/
def parseNeg (cs : List Char) : Bool × List Char :=
  match cs with
  | '-' :: r => (true, r)
  | _ => (false, cs)

/-- Optional fraction part `\.[0-9]+` of a JSON number; if absent or
malformed, nothing is consumed (the number grammar's fraction group simply
does not match). -/
def parseFracPart (cs : List Char) : List Char × List Char :=
  match cs with
  | '.' :: r2 =>
    match splitDigits r2 with
    | ([], _) => ([], cs)
    | (ds, r3) => (ds, r3)
  | _ => ([], cs)

/-- JSON number, per the decoder's grammar
`-?(0|[1-9][0-9]*)(\.[0-9]+)?([eE][+-]?[0-9]+)?`; the fractional and
exponent groups are only consumed when they fully match. -/
def parseNumber (cs : List Char) : Option (Json × List Char) :=
  let (neg, cs1) := parseNeg cs
  match cs1 with
  | [] => none
  | c :: rest =>
    if isDigitChar c then
      let (ipds, cs2) : List Char × List Char :=
        if c = '0' then ([c], rest) else splitDigits cs1
      let ip := natFromDigits ipds
      let (frds, cs3) := parseFracPart cs2
      let (ex, cs4) := parseExpPart cs3
      some (.num neg ip (frds.map digitFin) ex, cs4)
    else none

/-- Insert a parsed object member with Python `dict` assignment semantics:
a repeated key overwrites the stored value in place, keeping the original
position; a new key is appended. -/
def insertMember (acc : List (String × Json)) (k : String) (v : Json) :
    List (String × Json) :=
  match acc with
  | [] => [(k, v)]
  | (k', v') :: rest =>
    if k' = k then (k', v) :: rest else (k', v') :: insertMember rest k v

/-- The rest of the input after an immediate closing brace, if the input
begins with one (the empty-object case of the decoder). -/
def closeBrace : List Char → Option (List Char)
  | '}' :: r => some r
  | _ => none

/-- The rest of the input after an immediate closing bracket, if the
input begins with one (the empty-array case of the decoder). -/
def closeBracket : List Char → Option (List Char)
  | ']' :: r => some r
  | _ => none

/-- The tail of the literal `true` after its initial letter. -/
def parseTrueTail : List Char → Option (Json × List Char)
  | 'r' :: 'u' :: 'e' :: r => some (.bool true, r)
  | _ => none

/-- The tail of the literal `false` after its initial letter. -/
def parseFalseTail : List Char → Option (Json × List Char)
  | 'a' :: 'l' :: 's' :: 'e' :: r => some (.bool false, r)
  | _ => none

/-- The tail of the literal `null` after its initial letter. -/
def parseNullTail : List Char → Option (Json × List Char)
  | 'u' :: 'l' :: 'l' :: r => some (.null, r)
  | _ => none

mutual

/-- A JSON value: dispatch on the first character, as the decoder does. -/
def parseValue : Nat → List Char → Option (Json × List Char)
  | 0, _ => none
  | f + 1, cs =>
    match cs with
    | [] => none
    | c :: rest =>
      if c = '{' then
        match closeBrace (skipWs rest) with
        | some rest2 => some (.obj [], rest2)
        | none =>
          match parseMembers f rest [] with
          | some (m, rest2) => some (.obj m, rest2)
          | none => none
      else if c = '[' then
        match closeBracket (skipWs rest) with
        | some rest2 => some (.arr [], rest2)
        | none =>
          match parseElements f rest [] with
          | some (xs, rest2) => some (.arr xs, rest2)
          | none => none
      else if c = '"' then
        match parseStrBody f rest [] with
        | some (s, rest2) => some (.str s, rest2)
        | none => none
      else if c = 't' then parseTrueTail rest
      else if c = 'f' then parseFalseTail rest
      else if c = 'n' then parseNullTail rest
      else if c = '-' || isDigitChar c then parseNumber cs
      else none

/-- The members of a JSON object after the opening brace (nonempty case):
`"key" : value` pairs separated by commas, closed by `}`. -/
def parseMembers : Nat → List Char → List (String × Json) →
    Option (List (String × Json) × List Char)
  | 0, _, _ => none
  | f + 1, cs, acc =>
    match skipWs cs with
    | '"' :: rest =>
      match parseStrBody f rest [] with
      | none => none
      | some (k, rest2) =>
        match skipWs rest2 with
        | ':' :: rest4 =>
          match parseValue f (skipWs rest4) with
          | none => none
          | some (v, rest5) =>
            let acc2 := insertMember acc k v
            match skipWs rest5 with
            | ',' :: rest7 => parseMembers f rest7 acc2
            | '}' :: rest7 => some (acc2, rest7)
            | _ => none
        | _ => none
    | _ => none

/-- The elements of a JSON array after the opening bracket (nonempty
case): values separated by commas, closed by `]`. -/
def parseElements : Nat → List Char → List Json →
    Option (List Json × List Char)
  | 0, _, _ => none
  | f + 1, cs, acc =>
    match parseValue f (skipWs cs) with
    | none => none
    | some (v, rest) =>
      match skipWs rest with
      | ',' :: rest3 => parseElements f rest3 (v :: acc)
      | ']' :: rest3 => some ((v :: acc).reverse, rest3)
      | _ => none

end

/-- `json.loads` on a list of characters: one JSON value surrounded only by
whitespace; anything further is "Extra data" and the parse fails. -/
def jsonParseChars (cs : List Char) : Option Json :=
  match parseValue (cs.length + 1) (skipWs cs) with
  | some (v, rest) => if skipWs rest = [] then some v else none
  | none => none

/-- Python `str.isspace` characters: the set stripped by `str.strip()`. -/
def isPySpace (c : Char) : Bool :=
  let n := c.toNat
  (0x09 ≤ n && n ≤ 0x0D) || (0x1C ≤ n && n ≤ 0x1F) || n = 0x20 || n = 0x85 ||
  n = 0xA0 || n = 0x1680 || (0x2000 ≤ n && n ≤ 0x200A) || n = 0x2028 ||
  n = 0x2029 || n = 0x202F || n = 0x205F || n = 0x3000

/-- Drop trailing Python whitespace. -/
def rdropSpace (cs : List Char) : List Char :=
  (cs.reverse.dropWhile isPySpace).reverse

/-- Python `str.strip()`: drop leading and trailing whitespace. -/
def pyStrip (cs : List Char) : List Char :=
  rdropSpace (cs.dropWhile isPySpace)

/-- Worker for `fenceSplit`, carrying the current chunk reversed.  A cut
happens exactly at each leftmost occurrence of three consecutive
backticks, matching Python's non-overlapping leftmost `str.split`. -/
def fenceSplitGo : List Char → List Char → List (List Char)
  | [], acc => [acc.reverse]
  | '`' :: '`' :: '`' :: rest, acc => acc.reverse :: fenceSplitGo rest []
  | c :: rest, acc => fenceSplitGo rest (c :: acc)

/-- Python `str.split("```")`: split on the triple-backtick delimiter,
leftmost-first and non-overlapping. -/
def fenceSplit (cs : List Char) : List (List Char) :=
  fenceSplitGo cs []

/-- The line-break characters recognized by Python `str.splitlines`. -/
def isLineBreakChar (c : Char) : Bool :=
  c = '\n' || c = '\r' || c = '\x0b' || c = '\x0c' || c = '\x1c' ||
  c = '\x1d' || c = '\x1e' || c = '\x85' || c = '\u2028' || c = '\u2029'

/-- Worker for `pySplitlines`, carrying the current line reversed. -/
def pySplitlinesGo : List Char → List Char → List (List Char)
  | [], acc => if acc = [] then [] else [acc.reverse]
  | '\r' :: '\n' :: rest, acc => acc.reverse :: pySplitlinesGo rest []
  | c :: rest, acc =>
    if isLineBreakChar c then acc.reverse :: pySplitlinesGo rest []
    else pySplitlinesGo rest (c :: acc)

/-- Python `str.splitlines()`: no trailing empty line for a trailing
break, `\r\n` counts as a single break. -/
def pySplitlines (cs : List Char) : List (List Char) :=
  pySplitlinesGo cs []

/-- Python `str.lower()` restricted to ASCII (sufficient for comparison
against the ASCII language tags). -/
def pyLowerChar (c : Char) : Char :=
  if 'A' ≤ c && c ≤ 'Z' then Char.ofNat (c.toNat + 32) else c

/-- Lowercase a character list. -/
def pyLower (cs : List Char) : List Char :=
  cs.map pyLowerChar

/-- Worker for `findCharFrom`: first index `≥ i` (in the ambient string)
of `c` in the remaining characters. -/
def findFrom (c : Char) : List Char → Nat → Option Nat
  | [], _ => none
  | x :: r, i => if x = c then some i else findFrom c r (i + 1)

/-- Python `str.find(c, start)` (as an `Option` instead of `-1`). -/
def findCharFrom (cs : List Char) (c : Char) (start : Nat) : Option Nat :=
  findFrom c (cs.drop start) start

/-- Python's `pat in s` substring test. -/
def containsSeq : List Char → List Char → Bool
  | [], pat => pat.isEmpty
  | x :: r, pat => pat.isPrefixOf (x :: r) || containsSeq r pat

/-- The two failure kinds of the extractor.  The source raises a plain
`ValueError` in both cases; the messages keep the two distinguishable. -/
inductive ExtractErr where
  | emptyOutput : ExtractErr
  | noObjectFound : ExtractErr
deriving DecidableEq, Repr

/-- The `ValueError` message attached to each failure kind. -/
def ExtractErr.message : ExtractErr → String
  | .emptyOutput => "Empty model output"
  | .noObjectFound =>
    "JSON decode error: Could not extract a valid JSON object from model output"

namespace ValidationAi

/-- `_try_parse_object` (validation_ai.py): parse a candidate strictly and
accept it only when the parsed value's top-level type is an object. -/
def tryParseObject (candidate : List Char) : Option Json :=
  match jsonParseChars candidate with
  | some (Json.obj m) => some (Json.obj m)
  | _ => none

/-- The candidate text built from one fenced segment: split into lines,
drop the first line exactly when it is a known language tag
(`json`, `js`, `javascript` after strip+lower), re-join and strip. -/
def fencedCandidate (fencedBlock : List Char) : List Char :=
  let fencedLines := pySplitlines fencedBlock
  let fencedLines2 :=
    match fencedLines with
    | [] => fencedLines
    | firstLine :: restLines =>
      let t := pyLower (pyStrip firstLine)
      if t = "json".data || t = "js".data || t = "javascript".data then restLines
      else firstLine :: restLines
  pyStrip (List.intercalate ['\n'] fencedLines2)

/-- Try one fenced segment. -/
def fencedTry (fencedBlock : List Char) : Option Json :=
  tryParseObject (fencedCandidate fencedBlock)

/-- The fenced-block loop: try the segments at odd indices after the split
(`range(1, len(parts), 2)`), in order, returning the first success. -/
def fencedScan : List (List Char) → Option Json
  | _ :: inside :: rest =>
    match fencedTry inside with
    | some p => some p
    | none => fencedScan rest
  | _ => none

/-- The inner character scan of strategy 3: track string state, escape
flag and brace depth; return the absolute index of the closing brace that
brings the depth back to zero, if any. -/
def innerFind : List Char → Int → Bool → Bool → Nat → Option Nat
  | [], _, _, _, _ => none
  | ch :: rest, depth, inStr, esc, i =>
    if inStr then
      if esc then innerFind rest depth inStr false (i + 1)
      else if ch = '\\' then innerFind rest depth inStr true (i + 1)
      else if ch = '"' then innerFind rest depth false false (i + 1)
      else innerFind rest depth inStr false (i + 1)
    else
      if ch = '"' then innerFind rest depth true false (i + 1)
      else if ch = '{' then innerFind rest (depth + 1) inStr false (i + 1)
      else if ch = '}' then
        if depth - 1 = 0 then some i
        else innerFind rest (depth - 1) inStr false (i + 1)
      else innerFind rest depth inStr false (i + 1)

/-- The outer loop of strategy 3: from each `{` position (the next one is
looked up strictly after the previous start), find the balanced candidate,
try it, and on failure advance.  Fuel-recursive; the caller passes
`length + 1` fuel, which is always sufficient. -/
def braceLoop (cleaned : List Char) : Nat → Option Nat → Option Json
  | 0, _ => none
  | _ + 1, none => none
  | f + 1, some start =>
    match innerFind (cleaned.drop start) 0 false false start with
    | some endIdx =>
      match tryParseObject ((cleaned.drop start).take (endIdx + 1 - start)) with
      | some p => some p
      | none => braceLoop cleaned f (findCharFrom cleaned '{' (start + 1))
    | none => braceLoop cleaned f (findCharFrom cleaned '{' (start + 1))

/-- `_parse_strict_json_object` (validation_ai.py): whole-string parse,
then fenced blocks, then the balanced-brace scan; `ValueError` when the
input is empty/whitespace or no candidate parses as an object. -/
def extract (text : String) : Except ExtractErr Json :=
  if pyStrip text.data = [] then .error .emptyOutput
  else
    let cleaned := pyStrip text.data
    match tryParseObject cleaned with
    | some parsed => .ok parsed
    | none =>
      let fenced :=
        if containsSeq cleaned ['`', '`', '`'] then fencedScan (fenceSplit cleaned)
        else none
      match fenced with
      | some parsed => .ok parsed
      | none =>
        match braceLoop cleaned (cleaned.length + 1) (findCharFrom cleaned '{' 0) with
        | some parsed => .ok parsed
        | none => .error .noObjectFound

end ValidationAi

namespace DailyBrief

/-- `_try_parse_object` (daily_brief.py): parse a candidate strictly and
accept it only when the parsed value's top-level type is an object. -/
def tryParseObject (candidate : List Char) : Option Json :=
  match jsonParseChars candidate with
  | some (Json.obj m) => some (Json.obj m)
  | _ => none

/-- The candidate text built from one fenced segment (daily_brief.py). -/
def fencedCandidate (fencedBlock : List Char) : List Char :=
  let fencedLines := pySplitlines fencedBlock
  let fencedLines2 :=
    match fencedLines with
    | [] => fencedLines
    | firstLine :: restLines =>
      let t := pyLower (pyStrip firstLine)
      if t = "json".data || t = "js".data || t = "javascript".data then restLines
      else firstLine :: restLines
  pyStrip (List.intercalate ['\n'] fencedLines2)

/-- Try one fenced segment (daily_brief.py). -/
def fencedTry (fencedBlock : List Char) : Option Json :=
  tryParseObject (fencedCandidate fencedBlock)

/-- The fenced-block loop (daily_brief.py). -/
def fencedScan : List (List Char) → Option Json
  | _ :: inside :: rest =>
    match fencedTry inside with
    | some p => some p
    | none => fencedScan rest
  | _ => none

/-- The inner character scan of strategy 3 (daily_brief.py). -/
def innerFind : List Char → Int → Bool → Bool → Nat → Option Nat
  | [], _, _, _, _ => none
  | ch :: rest, depth, inStr, esc, i =>
    if inStr then
      if esc then innerFind rest depth inStr false (i + 1)
      else if ch = '\\' then innerFind rest depth inStr true (i + 1)
      else if ch = '"' then innerFind rest depth false false (i + 1)
      else innerFind rest depth inStr false (i + 1)
    else
      if ch = '"' then innerFind rest depth true false (i + 1)
      else if ch = '{' then innerFind rest (depth + 1) inStr false (i + 1)
      else if ch = '}' then
        if depth - 1 = 0 then some i
        else innerFind rest (depth - 1) inStr false (i + 1)
      else innerFind rest depth inStr false (i + 1)

/-- The outer loop of strategy 3 (daily_brief.py). -/
def braceLoop (cleaned : List Char) : Nat → Option Nat → Option Json
  | 0, _ => none
  | _ + 1, none => none
  | f + 1, some start =>
    match innerFind (cleaned.drop start) 0 false false start with
    | some endIdx =>
      match tryParseObject ((cleaned.drop start).take (endIdx + 1 - start)) with
      | some p => some p
      | none => braceLoop cleaned f (findCharFrom cleaned '{' (start + 1))
    | none => braceLoop cleaned f (findCharFrom cleaned '{' (start + 1))

/-- `_parse_strict_json_object` (daily_brief.py). -/
def extract (text : String) : Except ExtractErr Json :=
  if pyStrip text.data = [] then .error .emptyOutput
  else
    let cleaned := pyStrip text.data
    match tryParseObject cleaned with
    | some parsed => .ok parsed
    | none =>
      let fenced :=
        if containsSeq cleaned ['`', '`', '`'] then fencedScan (fenceSplit cleaned)
        else none
      match fenced with
      | some parsed => .ok parsed
      | none =>
        match braceLoop cleaned (cleaned.length + 1) (findCharFrom cleaned '{' 0) with
        | some parsed => .ok parsed
        | none => .error .noObjectFound

end DailyBrief

/-- Digit character for a value below ten. -/
def digChar (d : Nat) : Char :=
  "0123456789".data.getD d '0'

/-- Lowercase hexadecimal digit character for a value below sixteen. -/
def hexDigitChar (d : Nat) : Char :=
  "0123456789abcdef".data.getD d '0'

/-- Decimal digit characters of `n` (most significant first), by fuel;
`n + 1` units of fuel always suffice. -/
def natDigsAux : Nat → Nat → List Char
  | 0, _ => []
  | f + 1, n =>
    if n < 10 then [digChar n] else natDigsAux f (n / 10) ++ [digChar (n % 10)]

/-- Decimal digit characters of `n`, most significant first. -/
def natDigs (n : Nat) : List Char :=
  natDigsAux (n + 1) n

/-- Serialize one character of a JSON string: the two-character short
escapes for quote, backslash and the common control characters, `\u00XX`
for the remaining control characters, everything else verbatim. -/
def escChar (c : Char) : List Char :=
  if c = '"' then ['\\', '"']
  else if c = '\\' then ['\\', '\\']
  else if c = '\n' then ['\\', 'n']
  else if c = '\r' then ['\\', 'r']
  else if c = '\t' then ['\\', 't']
  else if c = '\x08' then ['\\', 'b']
  else if c = '\x0c' then ['\\', 'f']
  else if c.toNat < 0x20 then
    ['\\', 'u', '0', '0', hexDigitChar (c.toNat / 16), hexDigitChar (c.toNat % 16)]
  else [c]

/-- Serialize the characters of a JSON string body. -/
def escStr : List Char → List Char
  | [] => []
  | c :: rest => escChar c ++ escStr rest

/-- Serialized JSON string literal, quotes included. -/
def emitStr (s : String) : List Char :=
  '"' :: (escStr s.data ++ ['"'])

/-- Serialized exponent: `e`, an optional minus sign, decimal digits. -/
def expChars (e : Int) : List Char :=
  'e' :: (if e < 0 then '-' :: natDigs e.natAbs else natDigs e.natAbs)

/-- Serialized JSON number: sign, integer part, optional fraction,
optional exponent. -/
def emitNum (neg : Bool) (ip : Nat) (frac : List (Fin 10)) (exp : Option Int) :
    List Char :=
  (if neg then ['-'] else []) ++ natDigs ip ++
  (if frac = [] then [] else '.' :: frac.map (fun d => digChar d.val)) ++
  (match exp with
   | none => []
   | some e => expChars e)

mutual

/-- Serialize a JSON value (the text of the re-serialization used by the
idempotence property; see `dumps`). -/
def emitChars : Json → List Char
  | .null => "null".data
  | .bool true => "true".data
  | .bool false => "false".data
  | .num neg ip frac exp => emitNum neg ip frac exp
  | .str s => emitStr s
  | .arr xs => '[' :: (emitElems xs ++ [']'])
  | .obj ms => '{' :: (emitMems ms ++ ['}'])

/-- Serialize the elements of an array (no separator before the first). -/
def emitElems : List Json → List Char
  | [] => []
  | x :: xs => emitChars x ++ emitElemsTail xs

/-- Serialize array elements after the first, each preceded by
comma-space. -/
def emitElemsTail : List Json → List Char
  | [] => []
  | x :: xs => ',' :: ' ' :: (emitChars x ++ emitElemsTail xs)

/-- Serialize the members of an object (no separator before the first);
colon-space between key and value. -/
def emitMems : List (String × Json) → List Char
  | [] => []
  | (k, v) :: ms => emitStr k ++ ':' :: ' ' :: (emitChars v ++ emitMemsTail ms)

/-- Serialize object members after the first, each preceded by
comma-space. -/
def emitMemsTail : List (String × Json) → List Char
  | [] => []
  | (k, v) :: ms =>
    ',' :: ' ' :: (emitStr k ++ ':' :: ' ' :: (emitChars v ++ emitMemsTail ms))

end

/-- Modelled from the spec: the extractor's output "re-serialized to
text" for the idempotence property.  The repository never serializes the
parsed object itself, so the serializer is modelled as a standard JSON
emitter (`json.dumps` with unicode output) over the `Json` data model. -/
def dumps (v : Json) : String :=
  String.mk (emitChars v)

/-- Well-formedness of a decoded JSON value: object keys are distinct at
every level (guaranteed by the decoder's `dict` insertion semantics). -/
inductive JWF : Json → Prop where
  | null : JWF .null
  | bool (b : Bool) : JWF (.bool b)
  | num (neg : Bool) (ip : Nat) (frac : List (Fin 10)) (exp : Option Int) :
      JWF (.num neg ip frac exp)
  | str (s : String) : JWF (.str s)
  | arr (xs : List Json) : (∀ x ∈ xs, JWF x) → JWF (.arr xs)
  | obj (m : List (String × Json)) : (m.map Prod.fst).Nodup →
      (∀ p ∈ m, JWF p.2) → JWF (.obj m)

/-- The character run at the heart of the fenced marker: a backtick, the
tag letters, then a raw newline.  No input accepted by the strict decoder
can contain it: a backtick can only sit inside a string literal, whose
body may not hold a raw newline and only ends at a quote. -/
def badSeq : List Char := ['\x60', 'j', 's', 'o', 'n', '\n']

/-- The characters that may legitimately follow a serialized value inside
a re-serialized document: nothing, or a separator. -/
def SepH : List Char → Prop
  | [] => True
  | c :: _ => c = ',' ∨ c = '}' ∨ c = ']'

/-- The segments at odd indices of a list, in order: the "inside" parts
of a fence split. -/
def oddSegments {α : Type} (parts : List α) : List α :=
  (List.range parts.length).filterMap
    (fun i => if i % 2 = 1 then parts[i]? else none)

/-- First `some` in a list of options, if any. -/
def firstSome {α : Type} : List (Option α) → Option α
  | [] => none
  | some a :: _ => some a
  | none :: rest => firstSome rest

/-! ## Basic facts about the decoder and the extractor's success paths -/

theorem jsonParseChars_nil : jsonParseChars [] = none := by
  simp [jsonParseChars, skipWs, parseValue]

theorem va_tryParse_shape {c : List Char} {v : Json}
    (h : ValidationAi.tryParseObject c = some v) :
    ∃ m, v = Json.obj m ∧ jsonParseChars c = some (Json.obj m) := by
  unfold ValidationAi.tryParseObject at h
  cases hj : jsonParseChars c with
  | none => rw [hj] at h; cases h
  | some w =>
    rw [hj] at h
    cases w with
    | obj m =>
      have hv : Json.obj m = v := Option.some.inj h
      exact ⟨m, hv.symm, rfl⟩
    | null => cases h
    | bool b => cases h
    | num a b c d => cases h
    | str a => cases h
    | arr a => cases h

theorem va_fencedScan_ok : ∀ (parts : List (List Char)) {v : Json},
    ValidationAi.fencedScan parts = some v →
    ∃ c, ValidationAi.tryParseObject c = some v
  | [], v, h => by simp [ValidationAi.fencedScan] at h
  | [x], v, h => by simp [ValidationAi.fencedScan] at h
  | x :: y :: rest, v, h => by
    rw [ValidationAi.fencedScan] at h
    cases hft : ValidationAi.fencedTry y with
    | some p =>
      rw [hft] at h
      exact ⟨ValidationAi.fencedCandidate y,
        by rw [show ValidationAi.fencedTry y = ValidationAi.tryParseObject
          (ValidationAi.fencedCandidate y) from rfl] at hft
           rw [hft]; exact congrArg _ (Option.some.inj h)⟩
    | none =>
      rw [hft] at h
      exact va_fencedScan_ok rest h

theorem va_braceLoop_ok : ∀ (f : Nat) (cleaned : List Char) (st : Option Nat) {v : Json},
    ValidationAi.braceLoop cleaned f st = some v →
    ∃ c, ValidationAi.tryParseObject c = some v
  | 0, cleaned, st, v, h => by simp [ValidationAi.braceLoop] at h
  | f + 1, cleaned, none, v, h => by simp [ValidationAi.braceLoop] at h
  | f + 1, cleaned, some start, v, h => by
    rw [ValidationAi.braceLoop] at h
    split at h
    · split at h
      next p htp => exact ⟨_, htp.trans (congrArg _ (Option.some.inj h))⟩
      next htp => exact va_braceLoop_ok f cleaned _ h
    · exact va_braceLoop_ok f cleaned _ h

theorem va_extract_ok {s : String} {v : Json}
    (h : ValidationAi.extract s = Except.ok v) :
    ∃ c, ValidationAi.tryParseObject c = some v := by
  unfold ValidationAi.extract at h
  by_cases he : pyStrip s.data = []
  · rw [if_pos he] at h; cases h
  · rw [if_neg he] at h
    dsimp only at h
    cases h1 : ValidationAi.tryParseObject (pyStrip s.data) with
    | some p =>
      rw [h1] at h
      exact ⟨_, h1.trans (congrArg _ (Except.ok.inj h))⟩
    | none =>
      rw [h1] at h
      cases h2 : (if containsSeq (pyStrip s.data) ['`', '`', '`'] then
          ValidationAi.fencedScan (fenceSplit (pyStrip s.data)) else none) with
      | some p =>
        rw [h2] at h
        have hp : p = v := Except.ok.inj h
        subst hp
        by_cases hc : containsSeq (pyStrip s.data) ['`', '`', '`']
        · rw [if_pos hc] at h2
          exact va_fencedScan_ok _ h2
        · rw [if_neg hc] at h2; cases h2
      | none =>
        rw [h2] at h
        cases h3 : ValidationAi.braceLoop (pyStrip s.data) ((pyStrip s.data).length + 1)
            (findCharFrom (pyStrip s.data) '{' 0) with
        | some p =>
          rw [h3] at h
          exact va_braceLoop_ok _ _ _ (h3.trans (congrArg _ (Except.ok.inj h)))
        | none => rw [h3] at h; cases h

/-! ## Claims C1 to C5 -/

/-- C1: for every string whose trimmed form is valid JSON object text, the
extractor returns exactly the mapping obtained by parsing it directly, and
this happens through the first strategy (the whole-string parse helper
already accepts it). -/
theorem claim_c1 (s : String) (m : List (String × Json))
    (h : jsonParseChars (pyStrip s.data) = some (Json.obj m)) :
    ValidationAi.extract s = Except.ok (Json.obj m) ∧
    ValidationAi.tryParseObject (pyStrip s.data) = some (Json.obj m) := by
  have hne : pyStrip s.data ≠ [] := by
    intro he
    rw [he, jsonParseChars_nil] at h
    cases h
  have ht : ValidationAi.tryParseObject (pyStrip s.data) = some (Json.obj m) := by
    unfold ValidationAi.tryParseObject
    rw [h]
  refine ⟨?_, ht⟩
  unfold ValidationAi.extract
  rw [if_neg hne]
  dsimp only
  rw [ht]

theorem claim_c1_witness :
    jsonParseChars (pyStrip "  \x7b\"k\": true\x7d  ".data) = some (Json.obj [("k", Json.bool true)]) ∧
    ValidationAi.extract "  \x7b\"k\": true\x7d  " = Except.ok (Json.obj [("k", Json.bool true)]) :=
  ⟨rfl, (claim_c1 "  \x7b\"k\": true\x7d  " [("k", Json.bool true)] rfl).1⟩

/-- C2: the extractor never succeeds with a value whose top-level type is
not an object: every successful result is `Json.obj`. -/
theorem claim_c2 (s : String) (v : Json)
    (h : ValidationAi.extract s = Except.ok v) : ∃ m, v = Json.obj m := by
  obtain ⟨c, hc⟩ := va_extract_ok h
  obtain ⟨m, hm, _⟩ := va_tryParse_shape hc
  exact ⟨m, hm⟩

theorem claim_c2_witness :
    ∃ m, Json.obj [("a", Json.num false 1 [] none)] = Json.obj m :=
  claim_c2 "\x7b\"a\": 1\x7d" (Json.obj [("a", Json.num false 1 [] none)]) rfl

/-- C3: the extractor fails in exactly two ways: an empty or
all-whitespace input fails immediately with the `EmptyOutput`-style error,
any other failing input fails with the `NoObjectFound`-style error, and the
two messages keep the distinction. -/
theorem claim_c3 (s : String) :
    (pyStrip s.data = [] → ValidationAi.extract s = Except.error ExtractErr.emptyOutput) ∧
    (∀ e, ValidationAi.extract s = Except.error e →
      (pyStrip s.data = [] ∧ e = ExtractErr.emptyOutput) ∨
      (pyStrip s.data ≠ [] ∧ e = ExtractErr.noObjectFound)) ∧
    ExtractErr.emptyOutput.message = "Empty model output" ∧
    ExtractErr.noObjectFound.message =
      "JSON decode error: Could not extract a valid JSON object from model output" := by
  refine ⟨?_, ?_, rfl, rfl⟩
  · intro he
    unfold ValidationAi.extract
    rw [if_pos he]
  · intro e h
    by_cases he : pyStrip s.data = []
    · left
      refine ⟨he, ?_⟩
      unfold ValidationAi.extract at h
      rw [if_pos he] at h
      exact (Except.error.inj h).symm
    · right
      refine ⟨he, ?_⟩
      unfold ValidationAi.extract at h
      rw [if_neg he] at h
      dsimp only at h
      split at h
      · cases h
      · split at h
        · cases h
        · split at h
          · cases h
          · exact (Except.error.inj h).symm

theorem claim_c3_witness :
    ValidationAi.extract "   " = Except.error ExtractErr.emptyOutput ∧
    ((pyStrip "hello world, no json here".data = [] ∧
        ExtractErr.noObjectFound = ExtractErr.emptyOutput) ∨
     (pyStrip "hello world, no json here".data ≠ [] ∧
        ExtractErr.noObjectFound = ExtractErr.noObjectFound)) :=
  ⟨(claim_c3 "   ").1 rfl, (claim_c3 "hello world, no json here").2.1 _ rfl⟩

/-- C4: a failed balanced candidate does not abort the scan: the spec's
multiple-candidate example recovers the later object, and a candidate that
fails to parse is re-scanned from one position after its start (in the
second input the only valid object starts inside the failed candidate, so
resuming after the candidate's end would find nothing). -/
theorem claim_c4 :
    ValidationAi.extract "not json \x7bbad: until\x7d but \x7b\"ok\": true\x7d trailing" =
      Except.ok (Json.obj [("ok", Json.bool true)]) ∧
    ValidationAi.extract "\x7bbad \x7b\"ok\": true\x7d \x7d" =
      Except.ok (Json.obj [("ok", Json.bool true)]) :=
  ⟨rfl, rfl⟩

/-- C5: while the scanner is inside a quoted string, no character alters
the depth counter or closes a candidate (the scan simply advances with the
same depth), and the spec's embedded-brace examples parse to the object
mapping "note" to the string with a literal brace. -/
theorem claim_c5 :
    (∀ (ch : Char) (rest : List Char) (depth : Int) (esc : Bool) (i : Nat),
      ∃ inStr2 esc2, ValidationAi.innerFind (ch :: rest) depth true esc i =
        ValidationAi.innerFind rest depth inStr2 esc2 (i + 1)) ∧
    ValidationAi.extract "\x7b\"note\": \"use a \x7b here\"\x7d" =
      Except.ok (Json.obj [("note", Json.str "use a \x7b here")]) ∧
    ValidationAi.extract "xx \x7b\"note\": \"use a \x7b here\"\x7d yy" =
      Except.ok (Json.obj [("note", Json.str "use a \x7b here")]) := by
  refine ⟨?_, rfl, rfl⟩
  intro ch rest depth esc i
  by_cases hesc : esc
  · exact ⟨true, false, by rw [ValidationAi.innerFind, if_pos rfl, if_pos hesc]⟩
  · by_cases hb : ch = '\\'
    · exact ⟨true, true, by
        rw [ValidationAi.innerFind, if_pos rfl, if_neg hesc, if_pos hb]⟩
    · by_cases hq : ch = '"'
      · exact ⟨false, false, by
          rw [ValidationAi.innerFind, if_pos rfl, if_neg hesc, if_neg hb, if_pos hq]⟩
      · exact ⟨true, false, by
          rw [ValidationAi.innerFind, if_pos rfl, if_neg hesc, if_neg hb, if_neg hq]⟩

/-! ## Claim C6: the fenced-block strategy -/


/-! ## Claim C6: the fenced-block strategy -/

theorem oddSegments_cons_cons {α : Type} (x y : α) (rest : List α) :
    oddSegments (x :: y :: rest) = y :: oddSegments rest := by
  unfold oddSegments
  simp only [List.length_cons]
  rw [List.range_succ_eq_map, List.range_succ_eq_map]
  simp only [List.filterMap_cons, List.filterMap_map, Function.comp_def]
  norm_num
  apply List.filterMap_congr
  intro i _
  have h2 : (i + 1 + 1) % 2 = i % 2 := by omega
  rw [h2]

theorem oddSegments_nil {α : Type} : oddSegments ([] : List α) = [] := rfl

theorem oddSegments_single {α : Type} (x : α) : oddSegments [x] = [] := rfl

theorem va_fencedScan_firstSome : ∀ (parts : List (List Char)),
    ValidationAi.fencedScan parts =
      firstSome ((oddSegments parts).map ValidationAi.fencedTry)
  | [] => by simp [ValidationAi.fencedScan, oddSegments_nil, firstSome]
  | [x] => by simp [ValidationAi.fencedScan, oddSegments_single, firstSome]
  | x :: y :: rest => by
    rw [ValidationAi.fencedScan, oddSegments_cons_cons, List.map_cons]
    cases hft : ValidationAi.fencedTry y with
    | some p => rfl
    | none => exact va_fencedScan_firstSome rest

/-- C6: the fenced strategy tries exactly the odd-indexed segments of the
triple-backtick split, in order, returning the first object; a segment's
first line is dropped exactly when (after strip and lowercase) it is one
of the tags `json`, `js`, `javascript` — shown on a tagged fence, a
case-insensitive tagged fence, and an unrecognized tag whose first line is
kept as data. -/
theorem claim_c6 :
    (∀ parts : List (List Char), ValidationAi.fencedScan parts =
      firstSome ((oddSegments parts).map ValidationAi.fencedTry)) ∧
    ValidationAi.fencedCandidate "json\n\x7b\"a\":1\x7d\n".data = "\x7b\"a\":1\x7d".data ∧
    ValidationAi.fencedCandidate " JSON \n\x7b\"a\":1\x7d\n".data = "\x7b\"a\":1\x7d".data ∧
    ValidationAi.fencedCandidate "python\n\x7b\"a\":1\x7d\n".data =
      "python\n\x7b\"a\":1\x7d".data :=
  ⟨va_fencedScan_firstSome, rfl, rfl, rfl⟩

/-! ## Claim C9: the two copies of the extractor agree -/

theorem db_tryParse_eq (c : List Char) :
    DailyBrief.tryParseObject c = ValidationAi.tryParseObject c := rfl

theorem db_fencedTry_eq (b : List Char) :
    DailyBrief.fencedTry b = ValidationAi.fencedTry b := rfl

theorem db_innerFind_eq : ∀ (cs : List Char) (d : Int) (s e : Bool) (i : Nat),
    DailyBrief.innerFind cs d s e i = ValidationAi.innerFind cs d s e i
  | [], _, _, _, _ => rfl
  | ch :: rest, d, s, e, i => by
    rw [DailyBrief.innerFind, ValidationAi.innerFind]
    split_ifs <;> first
      | rfl
      | exact db_innerFind_eq rest _ _ _ _

theorem db_fencedScan_eq : ∀ (parts : List (List Char)),
    DailyBrief.fencedScan parts = ValidationAi.fencedScan parts
  | [] => rfl
  | [x] => rfl
  | x :: y :: rest => by
    rw [DailyBrief.fencedScan, ValidationAi.fencedScan, db_fencedTry_eq]
    cases ValidationAi.fencedTry y with
    | some p => rfl
    | none => exact db_fencedScan_eq rest

theorem db_braceLoop_eq : ∀ (f : Nat) (cl : List Char) (st : Option Nat),
    DailyBrief.braceLoop cl f st = ValidationAi.braceLoop cl f st
  | 0, _, _ => rfl
  | _ + 1, _, none => rfl
  | f + 1, cl, some start => by
    rw [DailyBrief.braceLoop, ValidationAi.braceLoop,
      db_innerFind_eq (cl.drop start) 0 false false start]
    cases ValidationAi.innerFind (cl.drop start) 0 false false start with
    | none => exact db_braceLoop_eq f cl _
    | some endIdx =>
      dsimp only
      rw [db_tryParse_eq ((cl.drop start).take (endIdx + 1 - start))]
      cases ValidationAi.tryParseObject ((cl.drop start).take (endIdx + 1 - start)) with
      | some p => rfl
      | none => exact db_braceLoop_eq f cl _

/-- C9: the two textually repeated copies of `_parse_strict_json_object`
are extensionally equal: on every input they return the same object or
fail with the same error. -/
theorem claim_c9 (s : String) : ValidationAi.extract s = DailyBrief.extract s := by
  unfold ValidationAi.extract DailyBrief.extract
  by_cases he : pyStrip s.data = []
  · simp only [if_pos he]
  · simp only [if_neg he]
    rw [db_tryParse_eq, db_fencedScan_eq, db_braceLoop_eq]

/-! ## Claim C10: termination of the brace scan -/

theorem va_innerFind_bound : ∀ (cs : List Char) (d : Int) (s e : Bool) (i j : Nat),
    ValidationAi.innerFind cs d s e i = some j → j < i + cs.length
  | [], d, s, e, i, j, h => by simp [ValidationAi.innerFind] at h
  | ch :: rest, d, s, e, i, j, h => by
    rw [ValidationAi.innerFind] at h
    simp only [List.length_cons]
    split_ifs at h
    all_goals first
      | (have hb := va_innerFind_bound rest _ _ _ _ _ h; omega)
      | (have hj := Option.some.inj h; omega)

theorem va_braceLoop_none (cl : List Char) :
    ∀ f, ValidationAi.braceLoop cl f none = none
  | 0 => rfl
  | _ + 1 => rfl

theorem findFrom_bound : ∀ (l : List Char) (c : Char) (i j : Nat),
    findFrom c l i = some j → i ≤ j ∧ j < i + l.length
  | [], c, i, j, h => by simp [findFrom] at h
  | x :: r, c, i, j, h => by
    rw [findFrom] at h
    simp only [List.length_cons]
    split_ifs at h
    · have := Option.some.inj h; omega
    · have := findFrom_bound r c (i + 1) j h; omega

theorem findCharFrom_bound {cs : List Char} {c : Char} {start j : Nat}
    (h : findCharFrom cs c start = some j) : start ≤ j ∧ j < cs.length := by
  unfold findCharFrom at h
  have hb := findFrom_bound (cs.drop start) c start j h
  have hd : (cs.drop start).length = cs.length - start := List.length_drop ..
  omega

theorem va_braceLoop_fuel : ∀ (f g : Nat) (cl : List Char) (start : Nat),
    cl.length - start < f → cl.length - start < g →
    ValidationAi.braceLoop cl f (some start) = ValidationAi.braceLoop cl g (some start)
  | 0, g, cl, start, hf, hg => absurd hf (by omega)
  | f + 1, 0, cl, start, hf, hg => absurd hg (by omega)
  | f + 1, g + 1, cl, start, hf, hg => by
    rw [ValidationAi.braceLoop, ValidationAi.braceLoop]
    cases hin : ValidationAi.innerFind (cl.drop start) 0 false false start with
    | some endIdx =>
      dsimp only
      cases htp : ValidationAi.tryParseObject
          ((cl.drop start).take (endIdx + 1 - start)) with
      | some p => rfl
      | none =>
        cases hfc : findCharFrom cl '{' (start + 1) with
        | none => rw [va_braceLoop_none, va_braceLoop_none]
        | some st2 =>
          have hb := findCharFrom_bound hfc
          exact va_braceLoop_fuel f g cl st2 (by omega) (by omega)
    | none =>
      cases hfc : findCharFrom cl '{' (start + 1) with
      | none => rw [va_braceLoop_none, va_braceLoop_none]
      | some st2 =>
        have hb := findCharFrom_bound hfc
        exact va_braceLoop_fuel f g cl st2 (by omega) (by omega)

/-- C10: the extractor terminates on every input: the inner character
scan yields a closing index bounded by the scanned segment's length, and
the outer loop's fuel of `length + 1` (with the search start strictly
increasing each iteration) is already enough — any extra fuel gives the
same result, so the function always returns an object or an error. -/
theorem claim_c10 :
    (∀ (cs : List Char) (d : Int) (s e : Bool) (i j : Nat),
      ValidationAi.innerFind cs d s e i = some j → j < i + cs.length) ∧
    (∀ (cleaned : List Char) (extra : Nat),
      ValidationAi.braceLoop cleaned (cleaned.length + 1 + extra)
          (findCharFrom cleaned '{' 0) =
        ValidationAi.braceLoop cleaned (cleaned.length + 1)
          (findCharFrom cleaned '{' 0)) := by
  refine ⟨va_innerFind_bound, ?_⟩
  intro cleaned extra
  cases hfc : findCharFrom cleaned '{' 0 with
  | none => rw [va_braceLoop_none, va_braceLoop_none]
  | some st =>
    have hb := findCharFrom_bound hfc
    exact va_braceLoop_fuel _ _ cleaned st (by omega) (by omega)

theorem claim_c10_witness : (1 : Nat) < 0 + ("\x7b\x7d".data).length :=
  claim_c10.1 "\x7b\x7d".data 0 false false 0 1 rfl

/-! ## Round-trip infrastructure: digits and numbers -/

theorem digChar_toNat : ∀ d : Nat, d < 10 → (digChar d).toNat = 48 + d := by decide

theorem isDigitChar_digChar : ∀ d : Nat, d < 10 → isDigitChar (digChar d) = true := by
  decide

theorem digChar_ne_zero : ∀ d : Nat, d < 10 → 1 ≤ d → digChar d ≠ '0' := by decide

theorem digitFin_digChar : ∀ d : Fin 10, digitFin (digChar d.val) = d := by decide

theorem hexVal_hexDigitChar : ∀ m : Nat, m < 16 → hexVal (hexDigitChar m) = some m := by
  decide

theorem natFromDigits_snoc (a : List Char) (c : Char) :
    natFromDigits (a ++ [c]) = natFromDigits a * 10 + (c.toNat - 48) := by
  unfold natFromDigits
  rw [List.foldl_append]
  rfl

theorem natDigsAux_spec : ∀ (f n : Nat), n < f →
    natFromDigits (natDigsAux f n) = n ∧ natDigsAux f n ≠ [] ∧
    ∀ c ∈ natDigsAux f n, isDigitChar c = true
  | 0, n, h => absurd h (by omega)
  | f + 1, n, h => by
    rw [natDigsAux]
    by_cases h10 : n < 10
    · rw [if_pos h10]
      refine ⟨?_, by simp, ?_⟩
      · show natFromDigits ([] ++ [digChar n]) = n
        rw [natFromDigits_snoc, digChar_toNat n h10]
        simp [natFromDigits]
      · intro c hc
        simp only [List.mem_singleton] at hc
        subst hc
        exact isDigitChar_digChar n h10
    · rw [if_neg h10]
      have hdiv : n / 10 < f := by omega
      obtain ⟨hv, hne, hd⟩ := natDigsAux_spec f (n / 10) hdiv
      refine ⟨?_, by simp, ?_⟩
      · rw [natFromDigits_snoc, hv, digChar_toNat (n % 10) (by omega)]
        omega
      · intro c hc
        rw [List.mem_append] at hc
        rcases hc with hc | hc
        · exact hd c hc
        · simp only [List.mem_singleton] at hc
          subst hc
          exact isDigitChar_digChar _ (by omega)

theorem natDigs_val (n : Nat) : natFromDigits (natDigs n) = n :=
  (natDigsAux_spec (n + 1) n (by omega)).1

theorem natDigs_ne_nil (n : Nat) : natDigs n ≠ [] :=
  (natDigsAux_spec (n + 1) n (by omega)).2.1

theorem natDigs_digits (n : Nat) : ∀ c ∈ natDigs n, isDigitChar c = true :=
  (natDigsAux_spec (n + 1) n (by omega)).2.2

theorem natDigsAux_head_pos : ∀ (f n : Nat), n < f → 1 ≤ n →
    ∃ c t, natDigsAux f n = c :: t ∧ c ≠ '0' ∧ isDigitChar c = true
  | 0, n, h, _ => absurd h (by omega)
  | f + 1, n, h, h1 => by
    rw [natDigsAux]
    by_cases h10 : n < 10
    · rw [if_pos h10]
      exact ⟨digChar n, [], rfl, digChar_ne_zero n h10 h1, isDigitChar_digChar n h10⟩
    · rw [if_neg h10]
      obtain ⟨c, t, he, hz, hd⟩ := natDigsAux_head_pos f (n / 10) (by omega) (by omega)
      exact ⟨c, t ++ [digChar (n % 10)], by rw [he]; rfl, hz, hd⟩

theorem digit_facts {c : Char} (h : isDigitChar c = true) :
    isWsJson c = false ∧ c ≠ ']' ∧ c ≠ '}' ∧ c ≠ ',' ∧ c ≠ '"' := by
  refine ⟨?_, ?_, ?_, ?_, ?_⟩
  · by_contra hw
    simp only [Bool.not_eq_false] at hw
    unfold isWsJson at hw
    rcases Bool.or_eq_true_iff.mp hw with hw' | hw'
    · rcases Bool.or_eq_true_iff.mp hw' with hw'' | hw''
      · rcases Bool.or_eq_true_iff.mp hw'' with hw3 | hw3 <;>
          (first
            | (have : c = ' ' := by simpa using hw3
               subst this; exact absurd h (by decide))
            | (have : c = '\t' := by simpa using hw3
               subst this; exact absurd h (by decide)))
      · have : c = '\n' := by simpa using hw''
        subst this; exact absurd h (by decide)
    · have : c = '\r' := by simpa using hw'
      subst this; exact absurd h (by decide)
  all_goals
    intro he
    subst he
    exact absurd h (by decide)

theorem takeWhile_digits_append : ∀ (ds rest : List Char),
    (∀ c ∈ ds, isDigitChar c = true) →
    (rest = [] ∨ ∃ c r, rest = c :: r ∧ isDigitChar c = false) →
    (ds ++ rest).takeWhile isDigitChar = ds ∧
      (ds ++ rest).dropWhile isDigitChar = rest := by
  intro ds rest hd hr
  induction ds with
  | nil =>
    simp only [List.nil_append]
    rcases hr with hr | ⟨c, r, hcr, hc⟩
    · subst hr; simp
    · subst hcr; simp [List.takeWhile_cons, List.dropWhile_cons, hc]
  | cons c cs ih =>
    have hc := hd c (by simp)
    have ih2 := ih (fun x hx => hd x (by simp [hx]))
    simp only [List.cons_append, List.takeWhile_cons, List.dropWhile_cons, hc]
    simp [ih2.1, ih2.2]

theorem splitDigits_append {ds rest : List Char}
    (hd : ∀ c ∈ ds, isDigitChar c = true)
    (hr : rest = [] ∨ ∃ c r, rest = c :: r ∧ isDigitChar c = false) :
    splitDigits (ds ++ rest) = (ds, rest) := by
  have h := takeWhile_digits_append ds rest hd hr
  unfold splitDigits
  rw [h.1, h.2]

theorem SepH_nondigit {rest : List Char} (h : SepH rest) :
    rest = [] ∨ ∃ c r, rest = c :: r ∧ isDigitChar c = false := by
  rcases rest with _ | ⟨c, r⟩
  · exact Or.inl rfl
  · right
    refine ⟨c, r, rfl, ?_⟩
    unfold SepH at h
    rcases h with h | h | h <;> subst h <;> decide

theorem parseSign_nonsign {c : Char} {r : List Char} (hp : c ≠ '+') (hm : c ≠ '-') :
    parseSign (c :: r) = (1, c :: r) := by
  unfold parseSign
  split
  next hh => exact absurd (List.cons.inj hh).1 hp
  next hh => exact absurd (List.cons.inj hh).1 hm
  next => rfl

theorem parseExpPart_sep {rest : List Char} (hrest : SepH rest) :
    parseExpPart rest = (none, rest) := by
  rcases rest with _ | ⟨c, r⟩
  · rfl
  · unfold SepH at hrest
    rcases hrest with h | h | h <;> subst h <;> rfl

theorem parseExpPart_emit (e : Int) {rest : List Char} (hrest : SepH rest) :
    parseExpPart (expChars e ++ rest) = (some e, rest) := by
  have hr := SepH_nondigit hrest
  unfold expChars
  by_cases he : e < 0
  · rw [if_pos he]
    show parseExpPart ('e' :: ('-' :: (natDigs e.natAbs ++ rest))) = (some e, rest)
    unfold parseExpPart
    simp only [show parseSign ('-' :: (natDigs e.natAbs ++ rest)) =
      (-1, natDigs e.natAbs ++ rest) from rfl]
    rw [splitDigits_append (natDigs_digits e.natAbs) hr]
    obtain ⟨c, t, hct⟩ := List.exists_cons_of_ne_nil (natDigs_ne_nil e.natAbs)
    rw [hct]
    simp only []
    rw [if_pos (by decide), ← hct, natDigs_val]
    simp only [Prod.mk.injEq, Option.some.injEq]
    exact ⟨by omega, trivial⟩
  · rw [if_neg he]
    show parseExpPart ('e' :: (natDigs e.natAbs ++ rest)) = (some e, rest)
    unfold parseExpPart
    obtain ⟨c, t, hct⟩ := List.exists_cons_of_ne_nil (natDigs_ne_nil e.natAbs)
    have hcd : isDigitChar c = true := natDigs_digits e.natAbs c (by rw [hct]; simp)
    have hcp : c ≠ '+' := by intro hh; rw [hh] at hcd; exact absurd hcd (by decide)
    have hcm : c ≠ '-' := by intro hh; rw [hh] at hcd; exact absurd hcd (by decide)
    rw [hct]
    simp only [List.cons_append, parseSign_nonsign hcp hcm]
    rw [show c :: (t ++ rest) = (c :: t) ++ rest from rfl, ← hct,
      splitDigits_append (natDigs_digits e.natAbs) hr]
    rw [hct]
    simp only []
    rw [if_pos (by decide), ← hct, natDigs_val]
    simp only [Prod.mk.injEq, Option.some.injEq]
    exact ⟨by omega, trivial⟩

theorem fracDigits_digits (frac : List (Fin 10)) :
    ∀ c ∈ frac.map (fun d => digChar d.val), isDigitChar c = true := by
  intro c hc
  obtain ⟨d, _, hdc⟩ := List.mem_map.mp hc
  subst hdc
  exact isDigitChar_digChar d.val d.isLt

theorem map_digitFin_digChar (frac : List (Fin 10)) :
    (frac.map fun d => digChar d.val).map digitFin = frac := by
  rw [List.map_map]
  have h : digitFin ∘ (fun d : Fin 10 => digChar d.val) = id := by
    funext d
    exact digitFin_digChar d
  rw [h, List.map_id]

theorem parseFracPart_nodot {cs : List Char}
    (h : cs = [] ∨ ∃ c r, cs = c :: r ∧ c ≠ '.') : parseFracPart cs = ([], cs) := by
  rcases h with h | ⟨c, r, hcr, hc⟩
  · subst h; rfl
  · subst hcr
    unfold parseFracPart
    split
    next hh => exact absurd (List.cons.inj hh).1 hc
    next => rfl

theorem parseFracPart_emit (frac : List (Fin 10)) (hne : frac ≠ []) {rest : List Char}
    (hr : rest = [] ∨ ∃ c r, rest = c :: r ∧ isDigitChar c = false) :
    parseFracPart (('.' :: frac.map fun d => digChar d.val) ++ rest) =
      (frac.map fun d => digChar d.val, rest) := by
  unfold parseFracPart
  simp only [List.cons_append]
  rw [splitDigits_append (fracDigits_digits frac) hr]
  have hmne : frac.map (fun d => digChar d.val) ≠ [] := by
    simpa using hne
  obtain ⟨c, t, hct⟩ := List.exists_cons_of_ne_nil hmne
  rw [hct]

theorem parseNeg_nonneg {c : Char} {r : List Char} (hm : c ≠ '-') :
    parseNeg (c :: r) = (false, c :: r) := by
  unfold parseNeg
  split
  next hh => exact absurd (List.cons.inj hh).1 hm
  next => rfl

theorem parseNumber_emit (neg : Bool) (ip : Nat) (frac : List (Fin 10)) (exp : Option Int)
    {rest : List Char} (hrest : SepH rest) :
    parseNumber (emitNum neg ip frac exp ++ rest) =
      some (.num neg ip frac exp, rest) := by
  have hER : (match exp with | none => [] | some e => expChars e) ++ rest = [] ∨
      ∃ c r, (match exp with | none => [] | some e => expChars e) ++ rest = c :: r ∧
        isDigitChar c = false ∧ c ≠ '.' := by
    cases exp with
    | none =>
      simp only [List.nil_append]
      rcases rest with _ | ⟨c, r⟩
      · exact Or.inl rfl
      · right
        unfold SepH at hrest
        rcases hrest with h | h | h <;> subst h <;>
          exact ⟨_, _, rfl, by decide, by decide⟩
    | some e =>
      exact Or.inr ⟨'e', _, rfl, by decide, by decide⟩
  have hERd : (match exp with | none => [] | some e => expChars e) ++ rest = [] ∨
      ∃ c r, (match exp with | none => [] | some e => expChars e) ++ rest = c :: r ∧
        isDigitChar c = false := by
    rcases hER with h | ⟨c, r, h1, h2, _⟩
    · exact Or.inl h
    · exact Or.inr ⟨c, r, h1, h2⟩
  have hfrac : parseFracPart
      ((if frac = [] then [] else '.' :: frac.map fun d => digChar d.val) ++
        ((match exp with | none => [] | some e => expChars e) ++ rest)) =
      ((frac.map fun d => digChar d.val),
        (match exp with | none => [] | some e => expChars e) ++ rest) := by
    by_cases hf : frac = []
    · subst hf
      simp only [if_pos rfl, List.nil_append, List.map_nil]
      apply parseFracPart_nodot
      rcases hER with h | ⟨c, r, h1, _, h3⟩
      · exact Or.inl h
      · exact Or.inr ⟨c, r, h1, h3⟩
    · rw [if_neg hf]
      exact parseFracPart_emit frac hf hERd
  have hexp : parseExpPart
      ((match exp with | none => [] | some e => expChars e) ++ rest) = (exp, rest) := by
    cases exp with
    | none => simpa using parseExpPart_sep hrest
    | some e => exact parseExpPart_emit e hrest
  have hFERd : (if frac = [] then [] else '.' :: frac.map fun d => digChar d.val) ++
      ((match exp with | none => [] | some e => expChars e) ++ rest) = [] ∨
      ∃ c r, (if frac = [] then [] else '.' :: frac.map fun d => digChar d.val) ++
        ((match exp with | none => [] | some e => expChars e) ++ rest) = c :: r ∧
        isDigitChar c = false := by
    by_cases hf : frac = []
    · subst hf
      simpa using hERd
    · rw [if_neg hf]
      exact Or.inr ⟨'.', _, rfl, by decide⟩
  obtain ⟨hc, ht, hct⟩ := List.exists_cons_of_ne_nil (natDigs_ne_nil ip)
  have hcd : isDigitChar hc = true := natDigs_digits ip hc (by rw [hct]; simp)
  have hcm : hc ≠ '-' := by
    intro hh; rw [hh] at hcd; exact absurd hcd (by decide)
  unfold emitNum
  cases neg with
  | true =>
    rw [if_pos rfl]
    simp only [List.append_assoc, List.cons_append, List.nil_append]
    unfold parseNumber
    simp only [show ∀ X, parseNeg ('-' :: X) = (true, X) from fun X => rfl]
    rw [hct]
    simp only [List.cons_append]
    rw [if_pos hcd]
    rcases Nat.eq_zero_or_pos ip with hip | hip
    · subst hip
      have h0 : ('0' : Char) :: ([] : List Char) = hc :: ht := hct
      obtain ⟨h01, h02⟩ := List.cons.inj h0
      subst h01
      subst h02
      rw [if_pos rfl]
      simp only [List.nil_append]
      rw [hfrac, hexp]
      simp only [map_digitFin_digChar]
      rfl
    · have hz : hc ≠ '0' := by
        obtain ⟨c2, t2, hct2, hz2, _⟩ := natDigsAux_head_pos (ip + 1) ip (by omega) hip
        have h0 : c2 :: t2 = hc :: ht := by rw [← hct2]; exact hct
        rw [← (List.cons.inj h0).1]
        exact hz2
      rw [if_neg hz]
      rw [show ∀ X : List Char, hc :: (ht ++ X) = (hc :: ht) ++ X from fun X => rfl]
      rw [← hct, splitDigits_append (natDigs_digits ip) hFERd]
      simp only []
      rw [natDigs_val, hfrac, hexp]
      simp only [map_digitFin_digChar]
  | false =>
    rw [if_neg (by simp)]
    simp only [List.append_assoc, List.cons_append, List.nil_append]
    unfold parseNumber
    rw [hct]
    simp only [List.cons_append]
    rw [parseNeg_nonneg hcm]
    simp only []
    rw [if_pos hcd]
    rcases Nat.eq_zero_or_pos ip with hip | hip
    · subst hip
      have h0 : ('0' : Char) :: ([] : List Char) = hc :: ht := hct
      obtain ⟨h01, h02⟩ := List.cons.inj h0
      subst h01
      subst h02
      rw [if_pos rfl]
      simp only [List.nil_append]
      rw [hfrac, hexp]
      simp only [map_digitFin_digChar]
      rfl
    · have hz : hc ≠ '0' := by
        obtain ⟨c2, t2, hct2, hz2, _⟩ := natDigsAux_head_pos (ip + 1) ip (by omega) hip
        have h0 : c2 :: t2 = hc :: ht := by rw [← hct2]; exact hct
        rw [← (List.cons.inj h0).1]
        exact hz2
      rw [if_neg hz]
      rw [show ∀ X : List Char, hc :: (ht ++ X) = (hc :: ht) ++ X from fun X => rfl]
      rw [← hct, splitDigits_append (natDigs_digits ip) hFERd]
      simp only []
      rw [natDigs_val, hfrac, hexp]
      simp only [map_digitFin_digChar]

theorem escChar_length_pos (c : Char) : 0 < (escChar c).length := by
  unfold escChar
  split_ifs <;> simp

theorem parseHex4_emit (n : Nat) (hn : n < 0x20) (rest : List Char) :
    parseHex4 ('0' :: '0' :: hexDigitChar (n / 16) :: hexDigitChar (n % 16) :: rest) =
      some (n, rest) := by
  unfold parseHex4
  simp only []
  rw [show hexVal '0' = some 0 from rfl,
    hexVal_hexDigitChar (n / 16) (by omega), hexVal_hexDigitChar (n % 16) (by omega)]
  simp only [Option.some.injEq, Prod.mk.injEq]
  exact ⟨by omega, trivial⟩

theorem parseStrBody_escChar (f : Nat) (c : Char) (rest acc : List Char) :
    parseStrBody (f + 1) (escChar c ++ rest) acc = parseStrBody f rest (c :: acc) := by
  by_cases h1 : c = '"'
  · subst h1; rfl
  by_cases h2 : c = '\\'
  · subst h2; rfl
  by_cases h3 : c = '\n'
  · subst h3; rfl
  by_cases h4 : c = '\r'
  · subst h4; rfl
  by_cases h5 : c = '\t'
  · subst h5; rfl
  by_cases h6 : c = '\x08'
  · subst h6; rfl
  by_cases h7 : c = '\x0c'
  · subst h7; rfl
  by_cases h8 : c.toNat < 0x20
  · unfold escChar
    rw [if_neg h1, if_neg h2, if_neg h3, if_neg h4, if_neg h5, if_neg h6, if_neg h7,
      if_pos h8]
    have hs1 : ((0xD800 ≤ c.toNat && c.toNat ≤ 0xDBFF) : Bool) = false := by
      simp only [Bool.and_eq_false_iff, decide_eq_false_iff_not]
      omega
    have hs2 : ((0xDC00 ≤ c.toNat && c.toNat ≤ 0xDFFF) : Bool) = false := by
      simp only [Bool.and_eq_false_iff, decide_eq_false_iff_not]
      omega
    show parseStrBody (f + 1)
      ('\\' :: 'u' :: '0' :: '0' :: hexDigitChar (c.toNat / 16) ::
        hexDigitChar (c.toNat % 16) :: rest) acc = parseStrBody f rest (c :: acc)
    rw [parseStrBody]
    simp only [parseHex4_emit c.toNat h8 rest, hs1, hs2, Char.ofNat_toNat,
      Bool.false_eq_true, if_false, reduceIte]
    rfl
  · unfold escChar
    rw [if_neg h1, if_neg h2, if_neg h3, if_neg h4, if_neg h5, if_neg h6, if_neg h7,
      if_neg h8]
    show parseStrBody (f + 1) (c :: rest) acc = parseStrBody f rest (c :: acc)
    rw [parseStrBody.eq_def]
    simp only []
    rw [if_neg h1, if_neg h2, if_neg h8]

theorem parseStrBody_escStr : ∀ (l : List Char) (f : Nat) (rest acc : List Char),
    (escStr l).length < f →
    parseStrBody f (escStr l ++ '"' :: rest) acc =
      some (String.mk (acc.reverse ++ l), rest)
  | [], f, rest, acc, hf => by
    obtain ⟨f', rfl⟩ : ∃ f', f = f' + 1 := ⟨f - 1, by omega⟩
    show parseStrBody (f' + 1) ('"' :: rest) acc = some (String.mk (acc.reverse ++ []), rest)
    rw [List.append_nil]
    rfl
  | c :: l, f, rest, acc, hf => by
    obtain ⟨f', rfl⟩ : ∃ f', f = f' + 1 := ⟨f - 1, by omega⟩
    have h2 : (escStr (c :: l)).length = (escChar c).length + (escStr l).length := by
      show (escChar c ++ escStr l).length = _
      simp [List.length_append]
    have hlen : (escStr l).length < f' := by
      have := escChar_length_pos c
      omega
    show parseStrBody (f' + 1) ((escChar c ++ escStr l) ++ '"' :: rest) acc = _
    rw [List.append_assoc, parseStrBody_escChar]
    rw [parseStrBody_escStr l f' rest (c :: acc) hlen]
    simp [List.append_assoc]

theorem digit_facts2 {c : Char} (h : isDigitChar c = true) :
    c ≠ '{' ∧ c ≠ '[' ∧ c ≠ '"' ∧ c ≠ 't' ∧ c ≠ 'f' ∧ c ≠ 'n' := by
  refine ⟨?_, ?_, ?_, ?_, ?_, ?_⟩ <;>
    (intro he; subst he; exact absurd h (by decide))

theorem emitNum_head (neg : Bool) (ip : Nat) (frac : List (Fin 10)) (exp : Option Int) :
    ∃ c t, emitNum neg ip frac exp = c :: t ∧ (c = '-' ∨ isDigitChar c = true) := by
  cases neg with
  | true =>
    refine ⟨'-', natDigs ip ++
      ((if frac = [] then [] else '.' :: frac.map fun d => digChar d.val) ++
        (match exp with | none => [] | some e => expChars e)), ?_, Or.inl rfl⟩
    unfold emitNum
    rw [if_pos rfl]
    simp [List.append_assoc]
  | false =>
    obtain ⟨c, t, hct⟩ := List.exists_cons_of_ne_nil (natDigs_ne_nil ip)
    have hcd := natDigs_digits ip c (by rw [hct]; simp)
    refine ⟨c, t ++
      ((if frac = [] then [] else '.' :: frac.map fun d => digChar d.val) ++
        (match exp with | none => [] | some e => expChars e)), ?_, Or.inr hcd⟩
    unfold emitNum
    rw [if_neg (by simp), hct]
    simp [List.append_assoc]

theorem emitChars_head (v : Json) : ∃ c t, emitChars v = c :: t ∧ isWsJson c = false ∧
    c ≠ ']' ∧ c ≠ '}' := by
  have hd : ∀ c : Char, c ∈ ['n', 't', 'f', '-', '"', '[', '\x7b'] →
      isWsJson c = false ∧ c ≠ ']' ∧ c ≠ '}' := by decide
  cases v with
  | null => exact ⟨'n', _, rfl, hd 'n' (by simp)⟩
  | bool b =>
    cases b with
    | true => exact ⟨'t', _, rfl, hd 't' (by simp)⟩
    | false => exact ⟨'f', _, rfl, hd 'f' (by simp)⟩
  | num neg ip frac exp =>
    obtain ⟨c, t, hct, hc⟩ := emitNum_head neg ip frac exp
    refine ⟨c, t, hct, ?_⟩
    rcases hc with hc | hc
    · subst hc
      exact hd '-' (by simp)
    · have h1 := digit_facts hc
      exact ⟨h1.1, h1.2.1, h1.2.2.1⟩
  | str s => exact ⟨'"', _, rfl, hd '"' (by simp)⟩
  | arr xs => exact ⟨'[', _, rfl, hd '[' (by simp)⟩
  | obj ms => exact ⟨'{', _, rfl, hd '\x7b' (by simp)⟩

theorem skipWs_nws {c : Char} {r : List Char} (h : isWsJson c = false) :
    skipWs (c :: r) = c :: r := by
  unfold skipWs
  rw [List.dropWhile_cons]
  simp [h]

theorem insertMember_append {k : String} (v : Json) :
    ∀ (acc : List (String × Json)), k ∉ acc.map Prod.fst →
    insertMember acc k v = acc ++ [(k, v)]
  | [], _ => rfl
  | (k', v') :: rest, hk => by
    have hne : k' ≠ k := by
      intro he
      exact hk (by simp [he])
    unfold insertMember
    rw [if_neg hne, insertMember_append v rest (by
      intro hm
      exact hk (by simp [hm]))]
    rfl

theorem skipWs_space (X : List Char) : skipWs (' ' :: X) = skipWs X := by
  unfold skipWs
  rw [List.dropWhile_cons]
  simp [isWsJson]

theorem parseElements_skipWs : ∀ (f : Nat) (cs cs' : List Char) (acc : List Json),
    skipWs cs = skipWs cs' →
    parseElements f cs acc = parseElements f cs' acc
  | 0, _, _, _, _ => rfl
  | f + 1, cs, cs', acc, h => by
    rw [parseElements.eq_def]
    rw [show parseElements (f + 1) cs' acc = _ from parseElements.eq_def ..]
    simp only []
    rw [h]

theorem parseMembers_skipWs : ∀ (f : Nat) (cs cs' : List Char) (acc : List (String × Json)),
    skipWs cs = skipWs cs' →
    parseMembers f cs acc = parseMembers f cs' acc
  | 0, _, _, _, _ => rfl
  | f + 1, cs, cs', acc, h => by
    rw [parseMembers.eq_def]
    rw [show parseMembers (f + 1) cs' acc = _ from parseMembers.eq_def ..]
    simp only []
    rw [h]

theorem emitMemsTail_cons_length (k' : String) (v' : Json) (ms' : List (String × Json)) :
    (emitMemsTail ((k', v') :: ms')).length =
      4 + (emitStr k').length + (emitChars v').length + (emitMemsTail ms').length := by
  show (',' :: ' ' :: (emitStr k' ++ ':' :: ' ' :: (emitChars v' ++ emitMemsTail ms'))).length = _
  simp [List.length_append]
  omega

theorem emitElemsTail_cons_length (y : Json) (ys : List Json) :
    (emitElemsTail (y :: ys)).length =
      2 + (emitChars y).length + (emitElemsTail ys).length := by
  show (',' :: ' ' :: (emitChars y ++ emitElemsTail ys)).length = _
  simp [List.length_append]
  omega

theorem emitStr_length (s : String) : (emitStr s).length = (escStr s.data).length + 2 := by
  show ('"' :: (escStr s.data ++ ['"'])).length = _
  simp

theorem closeBracket_ne {c : Char} {r : List Char} (h : c ≠ ']') :
    closeBracket (c :: r) = none := by
  unfold closeBracket
  split
  next hh => exact absurd (List.cons.inj hh).1 h
  next => rfl

theorem closeBrace_ne {c : Char} {r : List Char} (h : c ≠ '}') :
    closeBrace (c :: r) = none := by
  unfold closeBrace
  split
  next hh => exact absurd (List.cons.inj hh).1 h
  next => rfl

theorem list_sizeOf_pos {α : Type} [SizeOf α] (l : List α) : 0 < sizeOf l := by
  cases l <;> simp

theorem SepH_comma (r : List Char) : SepH (',' :: r) := Or.inl rfl

theorem SepH_rbrace (r : List Char) : SepH ('}' :: r) := Or.inr (Or.inl rfl)

theorem SepH_rbracket (r : List Char) : SepH (']' :: r) := Or.inr (Or.inr rfl)

mutual

theorem pv_emit : ∀ (v : Json) (f : Nat) (rest : List Char), JWF v → SepH rest →
    (emitChars v).length < f →
    parseValue f (emitChars v ++ rest) = some (v, rest)
  | .null, f, rest, _, _, hf => by
    obtain ⟨f', rfl⟩ : ∃ f', f = f' + 1 := ⟨f - 1, by omega⟩
    rfl
  | .bool true, f, rest, _, _, hf => by
    obtain ⟨f', rfl⟩ : ∃ f', f = f' + 1 := ⟨f - 1, by omega⟩
    rfl
  | .bool false, f, rest, _, _, hf => by
    obtain ⟨f', rfl⟩ : ∃ f', f = f' + 1 := ⟨f - 1, by omega⟩
    rfl
  | .num neg ip frac exp, f, rest, _, hsep, hf => by
    obtain ⟨f', rfl⟩ : ∃ f', f = f' + 1 := ⟨f - 1, by omega⟩
    obtain ⟨c, t, hct, hc⟩ := emitNum_head neg ip frac exp
    show parseValue (f' + 1) (emitNum neg ip frac exp ++ rest) = _
    rw [hct, List.cons_append, parseValue.eq_def]
    simp only []
    have hfacts : c ≠ '{' ∧ c ≠ '[' ∧ c ≠ '"' ∧ c ≠ 't' ∧ c ≠ 'f' ∧ c ≠ 'n' := by
      rcases hc with hc | hc
      · subst hc
        exact ⟨by decide, by decide, by decide, by decide, by decide, by decide⟩
      · exact digit_facts2 hc
    rw [if_neg hfacts.1, if_neg hfacts.2.1, if_neg hfacts.2.2.1, if_neg hfacts.2.2.2.1,
      if_neg hfacts.2.2.2.2.1, if_neg hfacts.2.2.2.2.2]
    rw [if_pos (by
      rcases hc with hc | hc
      · subst hc; decide
      · simp [hc])]
    rw [← List.cons_append, ← hct]
    exact parseNumber_emit neg ip frac exp hsep
  | .str s, f, rest, _, _, hf => by
    obtain ⟨f', rfl⟩ : ∃ f', f = f' + 1 := ⟨f - 1, by omega⟩
    have hlen : (emitChars (.str s)).length = (escStr s.data).length + 2 :=
      emitStr_length s
    show parseValue (f' + 1) (('"' :: (escStr s.data ++ ['"'])) ++ rest) = _
    rw [List.cons_append, List.append_assoc, parseValue.eq_def]
    simp only []
    rw [if_neg (by decide), if_neg (by decide)]
    simp only [if_true]
    rw [show (['"'] : List Char) ++ rest = '"' :: rest from rfl]
    rw [parseStrBody_escStr s.data f' rest [] (by omega)]
    rfl
  | .arr [], f, rest, _, _, hf => by
    obtain ⟨f', rfl⟩ : ∃ f', f = f' + 1 := ⟨f - 1, by omega⟩
    rfl
  | .arr (x :: xs), f, rest, hwf, hsep, hf => by
    obtain ⟨f', rfl⟩ : ∃ f', f = f' + 1 := ⟨f - 1, by omega⟩
    have hwfx : JWF x := by
      cases hwf with | arr _ h => exact h x (by simp)
    have hwfxs : ∀ y ∈ xs, JWF y := by
      cases hwf with | arr _ h => exact fun y hy => h y (by simp [hy])
    have hlen : (emitChars (.arr (x :: xs))).length =
        (emitChars x).length + (emitElemsTail xs).length + 2 := by
      show ('[' :: ((emitChars x ++ emitElemsTail xs) ++ [']'])).length = _
      simp [List.length_append]
      omega
    show parseValue (f' + 1)
      (('[' :: ((emitChars x ++ emitElemsTail xs) ++ [']'])) ++ rest) = _
    rw [List.cons_append, List.append_assoc, parseValue.eq_def]
    simp only []
    rw [if_neg (by decide)]
    simp only [if_true]
    rw [show ([']'] : List Char) ++ rest = ']' :: rest from rfl]
    obtain ⟨c, t, hct, hnws, hne1, hne2⟩ := emitChars_head x
    rw [show (emitChars x ++ emitElemsTail xs) ++ ']' :: rest =
        emitChars x ++ (emitElemsTail xs ++ ']' :: rest) from by simp [List.append_assoc]]
    rw [hct, List.cons_append, skipWs_nws hnws, closeBracket_ne hne1]
    simp only []
    rw [← List.cons_append, ← hct,
      show emitChars x ++ (emitElemsTail xs ++ ']' :: rest) =
        (emitChars x ++ emitElemsTail xs) ++ ']' :: rest from by simp [List.append_assoc]]
    rw [pe_emit x xs f' rest [] hwfx hwfxs hsep (by omega)]
    rfl
  | .obj [], f, rest, _, _, hf => by
    obtain ⟨f', rfl⟩ : ∃ f', f = f' + 1 := ⟨f - 1, by omega⟩
    rfl
  | .obj ((k, v) :: ms), f, rest, hwf, hsep, hf => by
    obtain ⟨f', rfl⟩ : ∃ f', f = f' + 1 := ⟨f - 1, by omega⟩
    have hnd : (((k, v) :: ms).map Prod.fst).Nodup := by
      cases hwf with | obj _ h _ => exact h
    have hwfv : JWF v := by
      cases hwf with | obj _ _ h => exact h (k, v) (by simp)
    have hwfms : ∀ p ∈ ms, JWF p.2 := by
      cases hwf with | obj _ _ h => exact fun p hp => h p (by simp [hp])
    have hlen : (emitChars (.obj ((k, v) :: ms))).length =
        (emitStr k).length + (emitChars v).length + (emitMemsTail ms).length + 4 := by
      show ('{' :: ((emitStr k ++ ':' :: ' ' ::
        (emitChars v ++ emitMemsTail ms)) ++ ['}'])).length = _
      simp [List.length_append]
      omega
    show parseValue (f' + 1)
      (('{' :: ((emitStr k ++ ':' :: ' ' :: (emitChars v ++ emitMemsTail ms)) ++ ['}'])) ++
        rest) = _
    rw [List.cons_append, List.append_assoc, parseValue.eq_def]
    simp only []
    simp only [if_true]
    rw [show (['}'] : List Char) ++ rest = '}' :: rest from rfl]
    have hshape : (emitStr k ++ ':' :: ' ' :: (emitChars v ++ emitMemsTail ms)) ++
        '}' :: rest =
        '"' :: (escStr k.data ++ ['"'] ++
          (':' :: ' ' :: (emitChars v ++ emitMemsTail ms) ++ '}' :: rest)) := by
      show ('"' :: (escStr k.data ++ ['"']) ++
        ':' :: ' ' :: (emitChars v ++ emitMemsTail ms)) ++ '}' :: rest = _
      simp [List.append_assoc]
    rw [hshape, skipWs_nws (by decide), closeBrace_ne (by decide)]
    simp only []
    rw [← hshape]
    rw [pm_emit k v ms f' rest [] hwfv hwfms hsep (by simpa using hnd) (by omega)]
    rfl
termination_by v _ _ _ _ _ => 2 * sizeOf v
decreasing_by all_goals (simp_wf; omega)

theorem pe_emit : ∀ (x : Json) (xs : List Json) (f : Nat) (rest : List Char)
    (acc : List Json),
    JWF x → (∀ y ∈ xs, JWF y) → SepH rest →
    (emitChars x).length + (emitElemsTail xs).length + 1 < f →
    parseElements f ((emitChars x ++ emitElemsTail xs) ++ ']' :: rest) acc =
      some (acc.reverse ++ x :: xs, rest)
  | x, [], f, rest, acc, hwfx, hwfxs, hsep, hf => by
    obtain ⟨f', rfl⟩ : ∃ f', f = f' + 1 := ⟨f - 1, by omega⟩
    rw [parseElements.eq_def]
    simp only []
    obtain ⟨c, t, hct, hnws, _, _⟩ := emitChars_head x
    rw [show (emitChars x ++ emitElemsTail []) ++ ']' :: rest =
        emitChars x ++ (']' :: rest) from by
      show (emitChars x ++ []) ++ ']' :: rest = _
      simp]
    rw [show skipWs (emitChars x ++ (']' :: rest)) = emitChars x ++ (']' :: rest) from by
      rw [hct, List.cons_append]
      exact skipWs_nws hnws]
    rw [pv_emit x f' (']' :: rest) hwfx (SepH_rbracket rest) (by omega)]
    simp only []
    rw [skipWs_nws (by decide)]
    simp only [List.reverse_cons]
  | x, y :: ys, f, rest, acc, hwfx, hwfxs, hsep, hf => by
    obtain ⟨f', rfl⟩ : ∃ f', f = f' + 1 := ⟨f - 1, by omega⟩
    rw [parseElements.eq_def]
    simp only []
    obtain ⟨c, t, hct, hnws, _, _⟩ := emitChars_head x
    rw [show (emitChars x ++ emitElemsTail (y :: ys)) ++ ']' :: rest =
        emitChars x ++
          (',' :: ' ' :: ((emitChars y ++ emitElemsTail ys) ++ ']' :: rest)) from by
      show (emitChars x ++ (',' :: ' ' :: (emitChars y ++ emitElemsTail ys))) ++
        ']' :: rest = _
      simp [List.append_assoc]]
    rw [show skipWs (emitChars x ++
          (',' :: ' ' :: ((emitChars y ++ emitElemsTail ys) ++ ']' :: rest))) =
        emitChars x ++
          (',' :: ' ' :: ((emitChars y ++ emitElemsTail ys) ++ ']' :: rest)) from by
      rw [hct, List.cons_append]
      exact skipWs_nws hnws]
    rw [pv_emit x f' _ hwfx (SepH_comma _) (by
      have := emitElemsTail_cons_length y ys
      omega)]
    simp only []
    rw [skipWs_nws (by decide)]
    simp only []
    rw [parseElements_skipWs f' _ ((emitChars y ++ emitElemsTail ys) ++ ']' :: rest)
      (x :: acc) (skipWs_space _)]
    rw [pe_emit y ys f' rest (x :: acc) (hwfxs y (by simp))
      (fun z hz => hwfxs z (by simp [hz])) hsep (by
        have := emitElemsTail_cons_length y ys
        omega)]
    simp [List.append_assoc]
termination_by x xs _ _ _ _ _ _ _ => 2 * (sizeOf x + sizeOf xs) + 1
decreasing_by all_goals (simp_wf; omega)

theorem pm_emit : ∀ (k : String) (v : Json) (ms : List (String × Json)) (f : Nat)
    (rest : List Char) (acc : List (String × Json)),
    JWF v → (∀ p ∈ ms, JWF p.2) → SepH rest →
    ((acc.map Prod.fst) ++ (k :: ms.map Prod.fst)).Nodup →
    (emitStr k).length + (emitChars v).length + (emitMemsTail ms).length + 2 < f →
    parseMembers f
      ((emitStr k ++ ':' :: ' ' :: (emitChars v ++ emitMemsTail ms)) ++ '}' :: rest) acc =
      some (acc ++ (k, v) :: ms, rest)
  | k, v, [], f, rest, acc, hwfv, hwfms, hsep, hnd, hf => by
    obtain ⟨f', rfl⟩ : ∃ f', f = f' + 1 := ⟨f - 1, by omega⟩
    have hkacc : k ∉ acc.map Prod.fst := by
      intro hmem
      rw [List.nodup_append] at hnd
      exact hnd.2.2 hmem (by simp)
    rw [parseMembers.eq_def]
    simp only []
    rw [show (emitStr k ++ ':' :: ' ' :: (emitChars v ++ emitMemsTail [])) ++ '}' :: rest =
        '"' :: (escStr k.data ++
          ('"' :: (':' :: ' ' :: ((emitChars v ++ emitMemsTail []) ++ '}' :: rest)))) from by
      show ('"' :: (escStr k.data ++ ['"']) ++
        ':' :: ' ' :: (emitChars v ++ emitMemsTail [])) ++ '}' :: rest = _
      simp [List.append_assoc]]
    rw [skipWs_nws (by decide)]
    simp only []
    rw [parseStrBody_escStr k.data f' _ [] (by
      have := emitStr_length k
      omega)]
    simp only [List.reverse_nil, List.nil_append]
    rw [skipWs_nws (by decide)]
    simp only []
    rw [skipWs_space]
    obtain ⟨c, t, hct, hnws, _, _⟩ := emitChars_head v
    rw [show skipWs ((emitChars v ++ emitMemsTail []) ++ '}' :: rest) =
        (emitChars v ++ emitMemsTail []) ++ '}' :: rest from by
      rw [List.append_assoc, hct, List.cons_append]
      exact skipWs_nws hnws]
    rw [show (emitChars v ++ emitMemsTail []) ++ '}' :: rest =
        emitChars v ++ ('}' :: rest) from by
      show (emitChars v ++ []) ++ '}' :: rest = _
      simp]
    rw [pv_emit v f' _ hwfv (SepH_rbrace rest) (by omega)]
    simp only []
    rw [insertMember_append v acc hkacc]
    rw [skipWs_nws (by decide)]
    simp
  | k, v, (k', v') :: ms', f, rest, acc, hwfv, hwfms, hsep, hnd, hf => by
    obtain ⟨f', rfl⟩ : ∃ f', f = f' + 1 := ⟨f - 1, by omega⟩
    have hkacc : k ∉ acc.map Prod.fst := by
      intro hmem
      rw [List.nodup_append] at hnd
      exact hnd.2.2 hmem (by simp)
    rw [parseMembers.eq_def]
    simp only []
    rw [show (emitStr k ++ ':' :: ' ' ::
        (emitChars v ++ emitMemsTail ((k', v') :: ms'))) ++ '}' :: rest =
        '"' :: (escStr k.data ++
          ('"' :: (':' :: ' ' ::
            ((emitChars v ++ emitMemsTail ((k', v') :: ms')) ++ '}' :: rest)))) from by
      show ('"' :: (escStr k.data ++ ['"']) ++
        ':' :: ' ' :: (emitChars v ++ emitMemsTail ((k', v') :: ms'))) ++ '}' :: rest = _
      simp [List.append_assoc]]
    rw [skipWs_nws (by decide)]
    simp only []
    rw [parseStrBody_escStr k.data f' _ [] (by
      have := emitStr_length k
      omega)]
    simp only [List.reverse_nil, List.nil_append]
    rw [skipWs_nws (by decide)]
    simp only []
    rw [skipWs_space]
    obtain ⟨c, t, hct, hnws, _, _⟩ := emitChars_head v
    rw [show skipWs ((emitChars v ++ emitMemsTail ((k', v') :: ms')) ++ '}' :: rest) =
        (emitChars v ++ emitMemsTail ((k', v') :: ms')) ++ '}' :: rest from by
      rw [List.append_assoc, hct, List.cons_append]
      exact skipWs_nws hnws]
    rw [show (emitChars v ++ emitMemsTail ((k', v') :: ms')) ++ '}' :: rest =
        emitChars v ++ (emitMemsTail ((k', v') :: ms') ++ '}' :: rest) from by
      simp [List.append_assoc]]
    rw [pv_emit v f' _ hwfv (by
      rw [show emitMemsTail ((k', v') :: ms') ++ '}' :: rest =
          ',' :: (' ' :: (emitStr k' ++ ':' :: ' ' ::
            (emitChars v' ++ emitMemsTail ms')) ++ '}' :: rest) from by
        show (',' :: ' ' :: (emitStr k' ++ ':' :: ' ' ::
          (emitChars v' ++ emitMemsTail ms'))) ++ '}' :: rest = _
        simp [List.append_assoc]]
      exact SepH_comma _) (by omega)]
    simp only []
    rw [insertMember_append v acc hkacc]
    rw [show emitMemsTail ((k', v') :: ms') ++ '}' :: rest =
        ',' :: ' ' :: ((emitStr k' ++ ':' :: ' ' ::
          (emitChars v' ++ emitMemsTail ms')) ++ '}' :: rest) from by
      show (',' :: ' ' :: (emitStr k' ++ ':' :: ' ' ::
        (emitChars v' ++ emitMemsTail ms'))) ++ '}' :: rest = _
      simp [List.append_assoc]]
    rw [skipWs_nws (by decide)]
    simp only []
    rw [parseMembers_skipWs f' _
      ((emitStr k' ++ ':' :: ' ' :: (emitChars v' ++ emitMemsTail ms')) ++ '}' :: rest)
      (acc ++ [(k, v)]) (skipWs_space _)]
    rw [pm_emit k' v' ms' f' rest (acc ++ [(k, v)]) (hwfms (k', v') (by simp))
      (fun p hp => hwfms p (by simp [hp])) hsep (by
        rw [show (acc ++ [(k, v)]).map Prod.fst ++ k' :: ms'.map Prod.fst =
          acc.map Prod.fst ++ k :: (((k', v') :: ms').map Prod.fst) from by simp]
        exact hnd) (by
        have := emitMemsTail_cons_length k' v' ms'
        omega)]
    simp [List.append_assoc]
termination_by k v ms _ _ _ _ _ _ _ _ => 2 * (sizeOf v + sizeOf ms) + 1
decreasing_by all_goals (simp_wf; omega)

end

theorem insertMember_keys (acc : List (String × Json)) (k : String) (v : Json) :
    ∀ k', k' ∈ (insertMember acc k v).map Prod.fst ↔
      (k' ∈ acc.map Prod.fst ∨ k' = k) := by
  induction acc with
  | nil => intro k'; simp [insertMember]
  | cons p rest ih =>
    intro k'
    obtain ⟨k0, v0⟩ := p
    unfold insertMember
    by_cases h : k0 = k
    · subst h
      simp
      tauto
    · rw [if_neg h]
      simp [ih k']
      tauto

theorem insertMember_nodup (acc : List (String × Json)) (k : String) (v : Json)
    (h : (acc.map Prod.fst).Nodup) : ((insertMember acc k v).map Prod.fst).Nodup := by
  induction acc with
  | nil => simp [insertMember]
  | cons p rest ih =>
    obtain ⟨k0, v0⟩ := p
    unfold insertMember
    by_cases hk : k0 = k
    · subst hk
      simpa using h
    · rw [if_neg hk]
      simp only [List.map_cons, List.nodup_cons] at h ⊢
      refine ⟨?_, ih h.2⟩
      intro hmem
      rw [insertMember_keys rest k v k0] at hmem
      rcases hmem with hmem | hmem
      · exact h.1 hmem
      · exact hk hmem

theorem insertMember_vals (acc : List (String × Json)) (k : String) (v : Json)
    (hacc : ∀ p ∈ acc, JWF p.2) (hv : JWF v) :
    ∀ p ∈ insertMember acc k v, JWF p.2 := by
  induction acc with
  | nil =>
    intro p hp
    simp [insertMember] at hp
    subst hp
    exact hv
  | cons q rest ih =>
    intro p hp
    obtain ⟨k0, v0⟩ := q
    unfold insertMember at hp
    by_cases hk : k0 = k
    · subst hk
      rw [if_pos rfl] at hp
      rcases List.mem_cons.mp hp with hp | hp
      · subst hp; exact hv
      · exact hacc p (by simp [hp])
    · rw [if_neg hk] at hp
      rcases List.mem_cons.mp hp with hp | hp
      · subst hp; exact hacc (k0, v0) (by simp)
      · exact ih (fun q hq => hacc q (by simp [hq])) p hp

theorem parseTrueTail_shape {cs : List Char} {v : Json} {r : List Char}
    (h : parseTrueTail cs = some (v, r)) : v = .bool true := by
  unfold parseTrueTail at h
  split at h
  · simp only [Option.some.injEq, Prod.mk.injEq] at h
    exact h.1.symm
  · cases h

theorem parseFalseTail_shape {cs : List Char} {v : Json} {r : List Char}
    (h : parseFalseTail cs = some (v, r)) : v = .bool false := by
  unfold parseFalseTail at h
  split at h
  · simp only [Option.some.injEq, Prod.mk.injEq] at h
    exact h.1.symm
  · cases h

theorem parseNullTail_shape {cs : List Char} {v : Json} {r : List Char}
    (h : parseNullTail cs = some (v, r)) : v = .null := by
  unfold parseNullTail at h
  split at h
  · simp only [Option.some.injEq, Prod.mk.injEq] at h
    exact h.1.symm
  · cases h

theorem parseNumber_num {cs : List Char} {v : Json} {r : List Char}
    (h : parseNumber cs = some (v, r)) : ∃ a b c d, v = Json.num a b c d := by
  unfold parseNumber at h
  repeat split at h
  all_goals try split_ifs at h
  any_goals cases h
  all_goals exact ⟨_, _, _, _, rfl⟩

mutual

theorem pv_wf : ∀ (f : Nat) (cs : List Char) (v : Json) (rest : List Char),
    parseValue f cs = some (v, rest) → JWF v
  | 0, cs, v, rest, h => by simp [parseValue] at h
  | f + 1, cs, v, rest, h => by
    rw [parseValue.eq_def] at h
    cases cs with
    | nil => cases h
    | cons c rest2 =>
      simp only [] at h
      split_ifs at h
      · split at h
        next x rest3 he3 =>
          simp only [Option.some.injEq, Prod.mk.injEq] at h
          rw [← h.1]
          exact JWF.obj [] (by simp) (by simp)
        next x he3 =>
          split at h
          next x2 mm rest3 hm =>
            simp only [Option.some.injEq, Prod.mk.injEq] at h
            rw [← h.1]
            have h2 := pm_wf f rest2 [] mm rest3 hm (by simp) (by simp)
            exact JWF.obj mm h2.1 h2.2
          next => cases h
      · split at h
        next x rest3 he3 =>
          simp only [Option.some.injEq, Prod.mk.injEq] at h
          rw [← h.1]
          exact JWF.arr [] (by simp)
        next x he3 =>
          split at h
          next x2 xs rest3 hx =>
            simp only [Option.some.injEq, Prod.mk.injEq] at h
            rw [← h.1]
            exact JWF.arr xs (pe_wf f rest2 [] xs rest3 hx (by simp))
          next => cases h
      · split at h
        next x s rest3 hs =>
          simp only [Option.some.injEq, Prod.mk.injEq] at h
          rw [← h.1]
          exact JWF.str s
        next => cases h
      · rw [parseTrueTail_shape h]
        exact JWF.bool true
      · rw [parseFalseTail_shape h]
        exact JWF.bool false
      · rw [parseNullTail_shape h]
        exact JWF.null
      · obtain ⟨a, b, c2, d, hv⟩ := parseNumber_num h
        rw [hv]
        exact JWF.num a b c2 d

theorem pm_wf : ∀ (f : Nat) (cs : List Char) (acc : List (String × Json))
    (m : List (String × Json)) (rest : List Char),
    parseMembers f cs acc = some (m, rest) →
    (acc.map Prod.fst).Nodup → (∀ p ∈ acc, JWF p.2) →
    (m.map Prod.fst).Nodup ∧ ∀ p ∈ m, JWF p.2
  | 0, cs, acc, m, rest, h, _, _ => by simp [parseMembers] at h
  | f + 1, cs, acc, m, rest, h, hnd, hwf => by
    rw [parseMembers.eq_def] at h
    simp only [] at h
    repeat split at h
    any_goals cases h
    rename_i x1 r1 he1 x2 k rest2 hk
    split at h
    next x3 rest4 he4 =>
      split at h
      next => cases h
      next x4 v rest5 hv =>
        have hvwf : JWF v := pv_wf f _ v rest5 hv
        have hnd2 := insertMember_nodup acc k v hnd
        have hwf2 := insertMember_vals acc k v hwf hvwf
        split at h
        next x5 rest7 he7 =>
          exact pm_wf f rest7 (insertMember acc k v) m rest h hnd2 hwf2
        next x5 rest7 he7 =>
          simp only [Option.some.injEq, Prod.mk.injEq] at h
          rw [← h.1]
          exact ⟨hnd2, hwf2⟩
        next => cases h
    next => cases h

theorem pe_wf : ∀ (f : Nat) (cs : List Char) (acc : List Json)
    (xs : List Json) (rest : List Char),
    parseElements f cs acc = some (xs, rest) →
    (∀ x ∈ acc, JWF x) → ∀ x ∈ xs, JWF x
  | 0, cs, acc, xs, rest, h, _ => by simp [parseElements] at h
  | f + 1, cs, acc, xs, rest, h, hwf => by
    rw [parseElements.eq_def] at h
    simp only [] at h
    split at h
    next => cases h
    next x1 v rest3 hv =>
      have hvwf : JWF v := pv_wf f _ v rest3 hv
      split at h
      next x2 rest4 he4 =>
        exact pe_wf f rest4 (v :: acc) xs rest h (by
          intro x hx
          rcases List.mem_cons.mp hx with hx | hx
          · subst hx; exact hvwf
          · exact hwf x hx)
      next x2 rest4 he4 =>
        simp only [Option.some.injEq, Prod.mk.injEq] at h
        intro x hx
        rw [← h.1] at hx
        rw [List.mem_reverse] at hx
        rcases List.mem_cons.mp hx with hx | hx
        · subst hx; exact hvwf
        · exact hwf x hx
      next => cases h

end

theorem jsonParseChars_emit (v : Json) (hwf : JWF v) :
    jsonParseChars (emitChars v) = some v := by
  unfold jsonParseChars
  obtain ⟨c, t, hct, hnws, _, _⟩ := emitChars_head v
  have hskip : skipWs (emitChars v) = emitChars v := by
    rw [hct]
    exact skipWs_nws hnws
  rw [hskip]
  have hpv := pv_emit v ((emitChars v).length + 1) [] hwf trivial (by omega)
  rw [List.append_nil] at hpv
  rw [hpv]
  simp [skipWs]

theorem pyStrip_sandwich (a : Char) (mid : List Char) (b : Char)
    (ha : isPySpace a = false) (hb : isPySpace b = false) :
    pyStrip (a :: (mid ++ [b])) = a :: (mid ++ [b]) := by
  unfold pyStrip rdropSpace
  rw [List.dropWhile_cons]
  simp only [ha, Bool.false_eq_true, if_false]
  rw [show (a :: (mid ++ [b])).reverse = b :: (mid.reverse ++ [a]) from by simp]
  rw [List.dropWhile_cons]
  simp only [hb, Bool.false_eq_true, if_false]
  simp

theorem pyStrip_emit_obj (m : List (String × Json)) :
    pyStrip (emitChars (Json.obj m)) = emitChars (Json.obj m) := by
  cases m with
  | nil => rfl
  | cons p ms =>
    show pyStrip ('{' :: (emitMems (p :: ms) ++ ['}'])) = _
    exact pyStrip_sandwich '{' (emitMems (p :: ms)) '}' (by decide) (by decide)

/-- C8: idempotence — whenever the extractor succeeds with object `o`,
feeding `o` re-serialized to JSON text back into the extractor succeeds
and returns exactly `o`. -/
theorem claim_c8 (s : String) (o : Json)
    (h : ValidationAi.extract s = Except.ok o) :
    ValidationAi.extract (dumps o) = Except.ok o := by
  obtain ⟨c, hc⟩ := va_extract_ok h
  obtain ⟨m, hm, hj⟩ := va_tryParse_shape hc
  subst hm
  have hwf : JWF (Json.obj m) := by
    unfold jsonParseChars at hj
    split at hj
    next x v2 rest2 hpv =>
      split at hj
      · simp only [Option.some.injEq] at hj
        exact hj ▸ pv_wf _ _ _ _ hpv
      · cases hj
    next => cases hj
  have hdata : (dumps (Json.obj m)).data = emitChars (Json.obj m) := rfl
  unfold ValidationAi.extract
  rw [hdata, pyStrip_emit_obj m]
  rw [if_neg (by
    obtain ⟨c2, t2, hct, _, _, _⟩ := emitChars_head (Json.obj m)
    rw [hct]
    simp)]
  dsimp only
  rw [show ValidationAi.tryParseObject (emitChars (Json.obj m)) = some (Json.obj m) from by
    unfold ValidationAi.tryParseObject
    rw [jsonParseChars_emit _ hwf]]

theorem claim_c8_witness :
    ValidationAi.extract (dumps (Json.obj [("a", Json.num false 1 [] none)])) =
      Except.ok (Json.obj [("a", Json.num false 1 [] none)]) :=
  claim_c8 "\x7b\"a\": 1\x7d" (Json.obj [("a", Json.num false 1 [] none)]) rfl

theorem bad_cons_elim {c : Char} {r u v : List Char}
    (h : c :: r = u ++ (badSeq ++ v)) (hc : c ≠ '\x60') :
    ∃ u2, r = u2 ++ (badSeq ++ v) := by
  cases u with
  | nil =>
    rw [List.nil_append, show badSeq ++ v = '\x60' :: ('j' :: 's' :: 'o' :: 'n' :: '\n' :: v)
      from rfl] at h
    injection h with h1 _
    exact absurd h1 hc
  | cons c0 u' =>
    rw [List.cons_append] at h
    injection h with _ h2
    exact ⟨u', h2⟩

theorem skipWs_bad : ∀ (u v : List Char), ∃ u2,
    skipWs (u ++ (badSeq ++ v)) = u2 ++ (badSeq ++ v)
  | [], v => ⟨[], by
      rw [List.nil_append]
      show skipWs ('\x60' :: ('j' :: 's' :: 'o' :: 'n' :: '\n' :: v)) = _
      rw [skipWs_nws (by decide)]
      rfl⟩
  | c :: u', v => by
    rcases hwc : isWsJson c with _ | _
    · exact ⟨c :: u', by rw [List.cons_append, skipWs_nws hwc]⟩
    · obtain ⟨u2, h2⟩ := skipWs_bad u' v
      refine ⟨u2, ?_⟩
      rw [List.cons_append]
      show List.dropWhile isWsJson (c :: (u' ++ (badSeq ++ v))) = _
      rw [List.dropWhile_cons, if_pos hwc]
      exact h2

theorem bad_suffix : ∀ (con r v : List Char), (∀ c ∈ con, c ≠ '\x60') →
    (∃ u, con ++ r = u ++ (badSeq ++ v)) → ∃ u2, r = u2 ++ (badSeq ++ v)
  | [], r, v, _, h => by simpa using h
  | c :: con', r, v, hc, ⟨u, hu⟩ => by
    rw [List.cons_append] at hu
    exact bad_suffix con' r v (fun x hx => hc x (by simp [hx]))
      (bad_cons_elim hu (hc c (by simp)))

theorem parseHex4_shape {cs : List Char} {n : Nat} {r : List Char}
    (h : parseHex4 cs = some (n, r)) :
    ∃ a b c d, cs = a :: b :: c :: d :: r ∧
      hexVal a ≠ none ∧ hexVal b ≠ none ∧ hexVal c ≠ none ∧ hexVal d ≠ none := by
  unfold parseHex4 at h
  split at h
  next a b c d rest =>
    split at h
    next va vb vc vd ha hb hc hd =>
      simp only [Option.some.injEq, Prod.mk.injEq] at h
      exact ⟨a, b, c, d, by rw [h.2], by rw [ha]; simp, by rw [hb]; simp,
        by rw [hc]; simp, by rw [hd]; simp⟩
    next => cases h
  next => cases h

theorem parseHex4_bad {u v : List Char} {n : Nat} {r : List Char}
    (h : parseHex4 (u ++ (badSeq ++ v)) = some (n, r)) :
    ∃ u2, r = u2 ++ (badSeq ++ v) := by
  obtain ⟨a, b, c, d, hcs, ha, hb, hc, hd⟩ := parseHex4_shape h
  rcases u with _ | ⟨x1, _ | ⟨x2, _ | ⟨x3, _ | ⟨x4, u'⟩⟩⟩⟩
  · rw [List.nil_append, show badSeq ++ v = '\x60' :: ('j' :: 's' :: 'o' :: 'n' :: '\n' :: v)
      from rfl] at hcs
    injection hcs with h1 _
    rw [← h1] at ha
    exact absurd rfl ha
  · rw [List.cons_append, List.nil_append, show badSeq ++ v =
      '\x60' :: ('j' :: 's' :: 'o' :: 'n' :: '\n' :: v) from rfl] at hcs
    injection hcs with _ hcs
    injection hcs with h2 _
    rw [← h2] at hb
    exact absurd rfl hb
  · rw [List.cons_append, List.cons_append, List.nil_append, show badSeq ++ v =
      '\x60' :: ('j' :: 's' :: 'o' :: 'n' :: '\n' :: v) from rfl] at hcs
    injection hcs with _ hcs
    injection hcs with _ hcs
    injection hcs with h3 _
    rw [← h3] at hc
    exact absurd rfl hc
  · rw [List.cons_append, List.cons_append, List.cons_append, List.nil_append,
      show badSeq ++ v = '\x60' :: ('j' :: 's' :: 'o' :: 'n' :: '\n' :: v) from rfl] at hcs
    injection hcs with _ hcs
    injection hcs with _ hcs
    injection hcs with _ hcs
    injection hcs with h4 _
    rw [← h4] at hd
    exact absurd rfl hd
  · rw [List.cons_append, List.cons_append, List.cons_append, List.cons_append] at hcs
    injection hcs with _ hcs
    injection hcs with _ hcs
    injection hcs with _ hcs
    injection hcs with _ hcs
    exact ⟨u', hcs.symm⟩

theorem parseStrBody_reg (f : Nat) (c : Char) (cs acc : List Char)
    (h1 : c ≠ '"') (h2 : c ≠ '\\') (h3 : ¬ c.toNat < 0x20) :
    parseStrBody (f + 1) (c :: cs) acc = parseStrBody f cs (c :: acc) := by
  rw [parseStrBody.eq_def]
  simp only []
  rw [if_neg h1, if_neg h2, if_neg h3]

theorem parseStrBody_run_newline : ∀ (p : List Char) (f : Nat) (cs acc : List Char),
    (∀ c ∈ p, c ≠ '"' ∧ c ≠ '\\' ∧ ¬ c.toNat < 0x20) →
    parseStrBody f (p ++ '\n' :: cs) acc = none
  | [], 0, cs, acc, _ => rfl
  | [], _ + 1, cs, acc, _ => rfl
  | c :: p', 0, cs, acc, _ => rfl
  | c :: p', f + 1, cs, acc, hp => by
    have h0 := hp c (by simp)
    rw [List.cons_append, parseStrBody_reg f c _ acc h0.1 h0.2.1 h0.2.2]
    exact parseStrBody_run_newline p' f cs (c :: acc) (fun x hx => hp x (by simp [hx]))

theorem parseStrBody_bad (v : List Char) : ∀ (f : Nat) (u acc : List Char)
    (s : String) (rest : List Char),
    parseStrBody f (u ++ (badSeq ++ v)) acc = some (s, rest) →
    ∃ u2, rest = u2 ++ (badSeq ++ v) := by
  intro f
  induction f with
  | zero =>
    intro u acc s rest h
    simp [parseStrBody] at h
  | succ f ih =>
    intro u acc s rest h
    rcases u with _ | ⟨c, u'⟩
    · rw [List.nil_append,
        show badSeq ++ v = '\x60' :: (['j', 's', 'o', 'n'] ++ '\n' :: v) from rfl,
        parseStrBody_reg f '\x60' _ acc (by decide) (by decide) (by decide),
        parseStrBody_run_newline ['j', 's', 'o', 'n'] f v ('\x60' :: acc) (by decide)] at h
      cases h
    · rw [List.cons_append, parseStrBody.eq_def] at h
      simp only [] at h
      by_cases hq : c = '"'
      · rw [if_pos hq] at h
        simp only [Option.some.injEq, Prod.mk.injEq] at h
        exact ⟨u', h.2.symm⟩
      rw [if_neg hq] at h
      by_cases hbs : c = '\\'
      · rw [if_pos hbs] at h
        rcases u' with _ | ⟨e, u''⟩
        · rw [List.nil_append, show badSeq ++ v =
            '\x60' :: ('j' :: 's' :: 'o' :: 'n' :: '\n' :: v) from rfl] at h
          exact Option.noConfusion h
        · rw [List.cons_append] at h
          simp only [] at h
          by_cases he1 : e = '"'
          · rw [if_pos he1] at h
            exact ih u'' _ s rest h
          rw [if_neg he1] at h
          by_cases he2 : e = '\\'
          · rw [if_pos he2] at h
            exact ih u'' _ s rest h
          rw [if_neg he2] at h
          by_cases he3 : e = '/'
          · rw [if_pos he3] at h
            exact ih u'' _ s rest h
          rw [if_neg he3] at h
          by_cases he4 : e = 'b'
          · rw [if_pos he4] at h
            exact ih u'' _ s rest h
          rw [if_neg he4] at h
          by_cases he5 : e = 'f'
          · rw [if_pos he5] at h
            exact ih u'' _ s rest h
          rw [if_neg he5] at h
          by_cases he6 : e = 'n'
          · rw [if_pos he6] at h
            exact ih u'' _ s rest h
          rw [if_neg he6] at h
          by_cases he7 : e = 'r'
          · rw [if_pos he7] at h
            exact ih u'' _ s rest h
          rw [if_neg he7] at h
          by_cases he8 : e = 't'
          · rw [if_pos he8] at h
            exact ih u'' _ s rest h
          rw [if_neg he8] at h
          by_cases heu : e = 'u'
          · rw [if_pos heu] at h
            split at h
            next => cases h
            next n rest3 hhex =>
              obtain ⟨u3, hu3⟩ := parseHex4_bad hhex
              subst hu3
              split_ifs at h with hs1 hs2
              · split at h
                next rest4 heq4 =>
                  rcases u3 with _ | ⟨y1, _ | ⟨y2, u4⟩⟩
                  · rw [List.nil_append, show badSeq ++ v =
                      '\x60' :: ('j' :: 's' :: 'o' :: 'n' :: '\n' :: v) from rfl] at heq4
                    injection heq4 with hh _
                    exact absurd hh (by decide)
                  · rw [List.cons_append, List.nil_append, show badSeq ++ v =
                      '\x60' :: ('j' :: 's' :: 'o' :: 'n' :: '\n' :: v) from rfl] at heq4
                    injection heq4 with _ heq4
                    injection heq4 with hh _
                    exact absurd hh (by decide)
                  · rw [List.cons_append, List.cons_append] at heq4
                    injection heq4 with _ heq4
                    injection heq4 with _ heq4
                    rw [← heq4] at h
                    split at h
                    next => cases h
                    next m rest5 hhex2 =>
                      obtain ⟨u5, hu5⟩ := parseHex4_bad hhex2
                      subst hu5
                      split_ifs at h with hs3
                      · exact ih _ _ s rest h
                next => cases h
              · exact ih u3 _ s rest h
          · rw [if_neg heu] at h
            cases h
      rw [if_neg hbs] at h
      by_cases hctl : c.toNat < 0x20
      · rw [if_pos hctl] at h
        cases h
      · rw [if_neg hctl] at h
        exact ih u' _ s rest h

theorem parseTrueTail_bad {u v : List Char} {j : Json} {rest : List Char}
    (h : parseTrueTail (u ++ (badSeq ++ v)) = some (j, rest)) :
    ∃ u2, rest = u2 ++ (badSeq ++ v) := by
  unfold parseTrueTail at h
  split at h
  next r heq =>
    simp only [Option.some.injEq, Prod.mk.injEq] at h
    rw [← h.2]
    exact bad_suffix ['r', 'u', 'e'] r v (by decide) ⟨u, heq.symm⟩
  next => cases h

theorem parseFalseTail_bad {u v : List Char} {j : Json} {rest : List Char}
    (h : parseFalseTail (u ++ (badSeq ++ v)) = some (j, rest)) :
    ∃ u2, rest = u2 ++ (badSeq ++ v) := by
  unfold parseFalseTail at h
  split at h
  next r heq =>
    simp only [Option.some.injEq, Prod.mk.injEq] at h
    rw [← h.2]
    exact bad_suffix ['a', 'l', 's', 'e'] r v (by decide) ⟨u, heq.symm⟩
  next => cases h

theorem parseNullTail_bad {u v : List Char} {j : Json} {rest : List Char}
    (h : parseNullTail (u ++ (badSeq ++ v)) = some (j, rest)) :
    ∃ u2, rest = u2 ++ (badSeq ++ v) := by
  unfold parseNullTail at h
  split at h
  next r heq =>
    simp only [Option.some.injEq, Prod.mk.injEq] at h
    rw [← h.2]
    exact bad_suffix ['u', 'l', 'l'] r v (by decide) ⟨u, heq.symm⟩
  next => cases h

theorem closeBrace_bad {u v rest : List Char}
    (h : closeBrace (u ++ (badSeq ++ v)) = some rest) :
    ∃ u2, rest = u2 ++ (badSeq ++ v) := by
  unfold closeBrace at h
  split at h
  next r heq =>
    simp only [Option.some.injEq] at h
    rw [← h]
    exact bad_suffix ['\x7d'] r v (by decide) ⟨u, heq.symm⟩
  next => cases h

theorem closeBracket_bad {u v rest : List Char}
    (h : closeBracket (u ++ (badSeq ++ v)) = some rest) :
    ∃ u2, rest = u2 ++ (badSeq ++ v) := by
  unfold closeBracket at h
  split at h
  next r heq =>
    simp only [Option.some.injEq] at h
    rw [← h]
    exact bad_suffix [']'] r v (by decide) ⟨u, heq.symm⟩
  next => cases h

theorem digit_ne_bt {c : Char} (h : isDigitChar c = true) : c ≠ '\x60' := by
  intro hc
  rw [hc] at h
  exact absurd h (by decide)

theorem parseNeg_suffix {cs : List Char} {b : Bool} {r : List Char}
    (h : parseNeg cs = (b, r)) :
    ∃ con, cs = con ++ r ∧ ∀ c ∈ con, c ≠ '\x60' := by
  unfold parseNeg at h
  split at h
  next rr =>
    simp only [Prod.mk.injEq] at h
    exact ⟨['-'], by rw [h.2]; rfl, by decide⟩
  next =>
    simp only [Prod.mk.injEq] at h
    exact ⟨[], by rw [h.2]; rfl, by simp⟩

theorem splitDigits_suffix {cs ds r : List Char} (h : splitDigits cs = (ds, r)) :
    cs = ds ++ r ∧ ∀ c ∈ ds, c ≠ '\x60' := by
  unfold splitDigits at h
  simp only [Prod.mk.injEq] at h
  constructor
  · rw [← h.1, ← h.2]
    exact (List.takeWhile_append_dropWhile isDigitChar cs).symm
  · intro c hc
    rw [← h.1] at hc
    exact digit_ne_bt (List.mem_takeWhile_imp hc)

theorem parseSign_suffix {cs : List Char} {s : Int} {r : List Char}
    (h : parseSign cs = (s, r)) :
    ∃ con, cs = con ++ r ∧ ∀ c ∈ con, c ≠ '\x60' := by
  unfold parseSign at h
  split at h
  next rr =>
    simp only [Prod.mk.injEq] at h
    exact ⟨['+'], by rw [h.2]; rfl, by decide⟩
  next rr =>
    simp only [Prod.mk.injEq] at h
    exact ⟨['-'], by rw [h.2]; rfl, by decide⟩
  next =>
    simp only [Prod.mk.injEq] at h
    exact ⟨[], by rw [h.2]; rfl, by simp⟩

theorem parseFracPart_suffix {cs : List Char} {ds : List Char} {r : List Char}
    (h : parseFracPart cs = (ds, r)) :
    ∃ con, cs = con ++ r ∧ ∀ c ∈ con, c ≠ '\x60' := by
  unfold parseFracPart at h
  split at h
  next r2 =>
    split at h
    next x snd heq =>
      simp only [Prod.mk.injEq] at h
      exact ⟨[], by rw [h.2]; rfl, by simp⟩
    next x dsa ra hne heq =>
      simp only [Prod.mk.injEq] at h
      obtain ⟨hsplit, hdig⟩ := splitDigits_suffix heq
      refine ⟨'.' :: dsa, by rw [← h.2, hsplit]; simp, ?_⟩
      intro c hc
      rcases List.mem_cons.mp hc with hc | hc
      · subst hc; decide
      · exact hdig c hc
  next =>
    simp only [Prod.mk.injEq] at h
    exact ⟨[], by rw [h.2]; rfl, by simp⟩

theorem parseExpPart_suffix {cs : List Char} {ex : Option Int} {r : List Char}
    (h : parseExpPart cs = (ex, r)) :
    ∃ con, cs = con ++ r ∧ ∀ c ∈ con, c ≠ '\x60' := by
  unfold parseExpPart at h
  split at h
  next e r0 =>
    by_cases he : (e = 'e' || e = 'E') = true
    · rw [if_pos he] at h
      rcases hps : parseSign r0 with ⟨sgn, r2⟩
      rw [hps] at h
      simp only [] at h
      split at h
      next x snd heq =>
        simp only [Prod.mk.injEq] at h
        exact ⟨[], by rw [h.2]; rfl, by simp⟩
      next x dsa ra hne heq =>
        simp only [Prod.mk.injEq] at h
        obtain ⟨con1, hcon1, hne1⟩ := parseSign_suffix hps
        obtain ⟨hsplit, hdig⟩ := splitDigits_suffix heq
        refine ⟨e :: (con1 ++ dsa), by rw [← h.2, hcon1, hsplit]; simp, ?_⟩
        intro c hc
        rcases List.mem_cons.mp hc with hc | hc
        · subst hc
          rcases Bool.or_eq_true_iff.mp he with he2 | he2 <;>
            rw [decide_eq_true_iff.mp he2] <;> decide
        · rcases List.mem_append.mp hc with hc | hc
          · exact hne1 c hc
          · exact hdig c hc
    · rw [if_neg he] at h
      simp only [Prod.mk.injEq] at h
      exact ⟨[], by rw [h.2]; rfl, by simp⟩
  next =>
    simp only [Prod.mk.injEq] at h
    exact ⟨[], by rw [← h.2]; rfl, by simp⟩

theorem fracExp_bad (v cs2 : List Char) (hbad : ∃ u2, cs2 = u2 ++ (badSeq ++ v)) :
    ∃ u4, (parseExpPart (parseFracPart cs2).2).2 = u4 ++ (badSeq ++ v) := by
  obtain ⟨u2, hu2⟩ := hbad
  obtain ⟨con3, hcon3, hne3⟩ := parseFracPart_suffix (Prod.mk.eta (p := parseFracPart cs2)).symm
  obtain ⟨u3, hu3⟩ := bad_suffix con3 (parseFracPart cs2).2 v hne3
    ⟨u2, by rw [← hcon3]; exact hu2⟩
  obtain ⟨con4, hcon4, hne4⟩ :=
    parseExpPart_suffix (Prod.mk.eta (p := parseExpPart (parseFracPart cs2).2)).symm
  exact bad_suffix con4 _ v hne4 ⟨u3, by rw [← hcon4]; exact hu3⟩

theorem parseNumber_bad {u v : List Char} {j : Json} {rest : List Char}
    (h : parseNumber (u ++ (badSeq ++ v)) = some (j, rest)) :
    ∃ u2, rest = u2 ++ (badSeq ++ v) := by
  unfold parseNumber at h
  rcases hpn : parseNeg (u ++ (badSeq ++ v)) with ⟨neg, cs1⟩
  rw [hpn] at h
  simp only [] at h
  obtain ⟨u1, hu1⟩ : ∃ u1, cs1 = u1 ++ (badSeq ++ v) := by
    obtain ⟨con, hcon, hne⟩ := parseNeg_suffix hpn
    exact bad_suffix con cs1 v hne ⟨u, hcon.symm⟩
  split at h
  next => cases h
  next c rest2 =>
    split_ifs at h with hdig hc0
    · simp only [Option.some.injEq, Prod.mk.injEq] at h
      rw [← h.2]
      exact fracExp_bad v rest2 (bad_cons_elim hu1 (digit_ne_bt hdig))
    · simp only [Option.some.injEq, Prod.mk.injEq] at h
      rw [← h.2]
      refine fracExp_bad v _ ?_
      obtain ⟨hsplit, hdigs⟩ :=
        splitDigits_suffix (Prod.mk.eta (p := splitDigits (c :: rest2))).symm
      exact bad_suffix _ _ v hdigs ⟨u1, by rw [← hsplit]; exact hu1⟩

mutual

theorem pv_bad : ∀ (f : Nat) (u v2 : List Char) (j : Json) (rest : List Char),
    parseValue f (u ++ (badSeq ++ v2)) = some (j, rest) →
    ∃ u2, rest = u2 ++ (badSeq ++ v2)
  | 0, u, v2, j, rest, h => by simp [parseValue] at h
  | f + 1, u, v2, j, rest, h => by
    rcases u with _ | ⟨c, u'⟩
    · rw [List.nil_append, show badSeq ++ v2 =
        '\x60' :: ('j' :: 's' :: 'o' :: 'n' :: '\n' :: v2) from rfl,
        parseValue.eq_def] at h
      simp only [] at h
      exact Option.noConfusion h
    · rw [List.cons_append, parseValue.eq_def] at h
      simp only [] at h
      split_ifs at h with h1 h2 h3 h4 h5 h6 h7
      · obtain ⟨u2, hsw⟩ := skipWs_bad u' v2
        rw [hsw] at h
        split at h
        next x rest2 hcb =>
          simp only [Option.some.injEq, Prod.mk.injEq] at h
          rw [← h.2]
          exact closeBrace_bad hcb
        next x hcb =>
          split at h
          next x2 mm rest2 hm =>
            simp only [Option.some.injEq, Prod.mk.injEq] at h
            rw [← h.2]
            exact pm_bad f u' v2 [] mm rest2 hm
          next => cases h
      · obtain ⟨u2, hsw⟩ := skipWs_bad u' v2
        rw [hsw] at h
        split at h
        next x rest2 hcb =>
          simp only [Option.some.injEq, Prod.mk.injEq] at h
          rw [← h.2]
          exact closeBracket_bad hcb
        next x hcb =>
          split at h
          next x2 xs rest2 hx =>
            simp only [Option.some.injEq, Prod.mk.injEq] at h
            rw [← h.2]
            exact pe_bad f u' v2 [] xs rest2 hx
          next => cases h
      · split at h
        next x s2 rest2 hs =>
          simp only [Option.some.injEq, Prod.mk.injEq] at h
          rw [← h.2]
          exact parseStrBody_bad v2 f u' [] s2 rest2 hs
        next => cases h
      · exact parseTrueTail_bad h
      · exact parseFalseTail_bad h
      · exact parseNullTail_bad h
      · rw [← List.cons_append] at h
        exact parseNumber_bad h

theorem pm_bad : ∀ (f : Nat) (u v2 : List Char) (acc : List (String × Json))
    (m : List (String × Json)) (rest : List Char),
    parseMembers f (u ++ (badSeq ++ v2)) acc = some (m, rest) →
    ∃ u2, rest = u2 ++ (badSeq ++ v2)
  | 0, u, v2, acc, m, rest, h => by simp [parseMembers] at h
  | f + 1, u, v2, acc, m, rest, h => by
    rw [parseMembers.eq_def] at h
    simp only [] at h
    obtain ⟨u1, hsw⟩ := skipWs_bad u v2
    rw [hsw] at h
    split at h
    next x rest1 heq =>
      obtain ⟨u2, hr1⟩ := bad_cons_elim heq.symm (by decide)
      rw [hr1] at h
      split at h
      next => cases h
      next x2 k rest2 hk =>
        obtain ⟨u3, hr2⟩ := parseStrBody_bad v2 f u2 [] k rest2 hk
        rw [hr2] at h
        obtain ⟨u4, hsw2⟩ := skipWs_bad u3 v2
        rw [hsw2] at h
        split at h
        next x3 rest4 heq4 =>
          obtain ⟨u5, hr4⟩ := bad_cons_elim heq4.symm (by decide)
          rw [hr4] at h
          obtain ⟨u6, hsw3⟩ := skipWs_bad u5 v2
          rw [hsw3] at h
          split at h
          next => cases h
          next x4 v5 rest5 hv =>
            obtain ⟨u7, hr5⟩ := pv_bad f u6 v2 v5 rest5 hv
            rw [hr5] at h
            obtain ⟨u8, hsw4⟩ := skipWs_bad u7 v2
            rw [hsw4] at h
            split at h
            next x5 rest7 heq7 =>
              obtain ⟨u9, hr7⟩ := bad_cons_elim heq7.symm (by decide)
              rw [hr7] at h
              exact pm_bad f u9 v2 _ m rest h
            next x5 rest7 heq7 =>
              obtain ⟨u9, hr7⟩ := bad_cons_elim heq7.symm (by decide)
              simp only [Option.some.injEq, Prod.mk.injEq] at h
              rw [← h.2]
              exact ⟨u9, hr7⟩
            next => cases h
        next => cases h
    next => cases h

theorem pe_bad : ∀ (f : Nat) (u v2 : List Char) (acc : List Json)
    (xs : List Json) (rest : List Char),
    parseElements f (u ++ (badSeq ++ v2)) acc = some (xs, rest) →
    ∃ u2, rest = u2 ++ (badSeq ++ v2)
  | 0, u, v2, acc, xs, rest, h => by simp [parseElements] at h
  | f + 1, u, v2, acc, xs, rest, h => by
    rw [parseElements.eq_def] at h
    simp only [] at h
    obtain ⟨u1, hsw⟩ := skipWs_bad u v2
    rw [hsw] at h
    split at h
    next => cases h
    next x v5 rest5 hv =>
      obtain ⟨u2, hr5⟩ := pv_bad f u1 v2 v5 rest5 hv
      rw [hr5] at h
      obtain ⟨u3, hsw2⟩ := skipWs_bad u2 v2
      rw [hsw2] at h
      split at h
      next x2 rest3 heq3 =>
        obtain ⟨u4, hr3⟩ := bad_cons_elim heq3.symm (by decide)
        rw [hr3] at h
        exact pe_bad f u4 v2 (v5 :: acc) xs rest h
      next x2 rest3 heq3 =>
        obtain ⟨u4, hr3⟩ := bad_cons_elim heq3.symm (by decide)
        simp only [Option.some.injEq, Prod.mk.injEq] at h
        rw [← h.2]
        exact ⟨u4, hr3⟩
      next => cases h

end

theorem jsonParseChars_bad (u v : List Char) :
    jsonParseChars (u ++ (badSeq ++ v)) = none := by
  unfold jsonParseChars
  obtain ⟨u1, hsw⟩ := skipWs_bad u v
  split
  next val rest hpv =>
    rw [hsw] at hpv
    obtain ⟨u2, hr⟩ := pv_bad _ u1 v val rest hpv
    obtain ⟨u3, hsw2⟩ := skipWs_bad u2 v
    rw [if_neg]
    rw [hr, hsw2]
    simp [badSeq]
  next => rfl

theorem va_tryParse_bad (u v : List Char) :
    ValidationAi.tryParseObject (u ++ (badSeq ++ v)) = none := by
  unfold ValidationAi.tryParseObject
  rw [jsonParseChars_bad]

theorem dropWhile_append_cons (p : Char → Bool) : ∀ (l : List Char) (c : Char) (r : List Char),
    p c = false →
    List.dropWhile p (l ++ c :: r) = List.dropWhile p l ++ c :: r
  | [], c, r, hc => by
    simp [List.dropWhile_cons, hc]
  | x :: l', c, r, hc => by
    rw [List.cons_append, List.dropWhile_cons, List.dropWhile_cons]
    split_ifs with hx
    · exact dropWhile_append_cons p l' c r hc
    · rfl

theorem rdropSpace_closed (zi : List Char) (c : Char) (a : List Char)
    (hc : isPySpace c = false) :
    rdropSpace ((zi ++ [c]) ++ a) = (zi ++ [c]) ++ rdropSpace a := by
  unfold rdropSpace
  rw [show ((zi ++ [c]) ++ a).reverse = a.reverse ++ c :: zi.reverse from by simp]
  rw [dropWhile_append_cons isPySpace a.reverse c zi.reverse hc]
  simp

theorem pyStrip_around (b a : List Char) (c0 : Char) (mid : List Char) (cl : Char)
    (h0 : isPySpace c0 = false) (hl : isPySpace cl = false) :
    pyStrip (b ++ (c0 :: (mid ++ [cl])) ++ a) =
      (List.dropWhile isPySpace b ++ (c0 :: (mid ++ [cl]))) ++ rdropSpace a := by
  unfold pyStrip
  rw [show b ++ (c0 :: (mid ++ [cl])) ++ a = b ++ c0 :: ((mid ++ [cl]) ++ a) from by simp]
  rw [dropWhile_append_cons isPySpace b c0 _ h0]
  rw [show List.dropWhile isPySpace b ++ c0 :: ((mid ++ [cl]) ++ a) =
    ((List.dropWhile isPySpace b ++ (c0 :: mid)) ++ [cl]) ++ a from by simp]
  rw [rdropSpace_closed _ cl a hl]
  simp

theorem fenceSplitGo_mark (rest acc : List Char) :
    fenceSplitGo ('\x60' :: '\x60' :: '\x60' :: rest) acc =
      acc.reverse :: fenceSplitGo rest [] := rfl

theorem fenceSplitGo_cons_ne (c : Char) (l acc : List Char) (hc : c ≠ '\x60') :
    fenceSplitGo (c :: l) acc = fenceSplitGo l (c :: acc) := by
  rw [fenceSplitGo.eq_def]
  split
  next heq => exact absurd heq (by simp)
  next rest heq =>
    injection heq with h1 _
    exact absurd h1 hc
  next c' rest' heq =>
    injection heq with h1 h2
    rw [h1, h2]

theorem fenceSplitGo_no_bt : ∀ (l rest acc : List Char),
    (∀ c ∈ l, c ≠ '\x60') →
    fenceSplitGo (l ++ '\x60' :: '\x60' :: '\x60' :: rest) acc =
      (acc.reverse ++ l) :: fenceSplitGo rest []
  | [], rest, acc, _ => by
    rw [List.nil_append, fenceSplitGo_mark]
    simp
  | c :: l', rest, acc, hl => by
    rw [List.cons_append, fenceSplitGo_cons_ne c _ acc (hl c (by simp))]
    rw [fenceSplitGo_no_bt l' rest (c :: acc) (fun x hx => hl x (by simp [hx]))]
    simp

theorem containsSeq_mark : ∀ (u rest : List Char),
    containsSeq (u ++ '\x60' :: '\x60' :: '\x60' :: rest) ['\x60', '\x60', '\x60'] = true
  | [], rest => by
    rw [List.nil_append]
    unfold containsSeq
    rw [show (['\x60', '\x60', '\x60'] : List Char).isPrefixOf
        ('\x60' :: '\x60' :: '\x60' :: rest) = true from by simp [List.isPrefixOf]]
    simp
  | c :: u', rest => by
    rw [List.cons_append]
    unfold containsSeq
    rw [containsSeq_mark u' rest]
    simp

/-- C7 (amended): the fenced block with the single-member payload, embedded
in arbitrary prose before and after it, is recovered by the extractor as
the object with member "a" mapped to 1, provided the prose before the
block contains no backtick character.  (Without that proviso the claim is
false: see the counterexample, where the earlier prose carries a fenced
object of its own and that one wins.) -/
theorem claim_c7 (b a : String) (hb : '\x60' ∉ b.data) :
    ValidationAi.extract
        (b ++ "\x60\x60\x60json\n\x7b\"a\":1\x7d\n\x60\x60\x60" ++ a) =
      Except.ok (Json.obj [("a", Json.num false 1 [] none)]) := by
  have hb2 : ∀ c ∈ List.dropWhile isPySpace b.data, c ≠ '\x60' := fun c hc he =>
    hb (he ▸ (List.dropWhile_sublist isPySpace).subset hc)
  have hd : (b ++ "\x60\x60\x60json\n\x7b\"a\":1\x7d\n\x60\x60\x60" ++ a).data =
      b.data ++ ('\x60' :: (['\x60', '\x60', 'j', 's', 'o', 'n', '\n', '\x7b', '"', 'a', '"',
        ':', '1', '\x7d', '\n', '\x60', '\x60'] ++ ['\x60'])) ++ a.data := by
    rw [String.data_append, String.data_append]
    rfl
  unfold ValidationAi.extract
  rw [hd, pyStrip_around b.data a.data '\x60'
    ['\x60', '\x60', 'j', 's', 'o', 'n', '\n', '\x7b', '"', 'a', '"', ':', '1', '\x7d', '\n',
      '\x60', '\x60'] '\x60' (by decide) (by decide)]
  rw [if_neg (by simp)]
  dsimp only
  rw [show (List.dropWhile isPySpace b.data ++ ('\x60' :: (['\x60', '\x60', 'j', 's', 'o',
      'n', '\n', '\x7b', '"', 'a', '"', ':', '1', '\x7d', '\n', '\x60', '\x60'] ++ ['\x60']))) ++
      rdropSpace a.data =
    (List.dropWhile isPySpace b.data ++ ['\x60', '\x60']) ++ (badSeq ++
      ('\x7b' :: '"' :: 'a' :: '"' :: ':' :: '1' :: '\x7d' :: '\n' :: '\x60' :: '\x60' :: '\x60' ::
        rdropSpace a.data)) from by simp [badSeq]]
  rw [va_tryParse_bad]
  dsimp only
  rw [show (List.dropWhile isPySpace b.data ++ ['\x60', '\x60']) ++ (badSeq ++
      ('\x7b' :: '"' :: 'a' :: '"' :: ':' :: '1' :: '\x7d' :: '\n' :: '\x60' :: '\x60' :: '\x60' ::
        rdropSpace a.data)) =
    List.dropWhile isPySpace b.data ++ '\x60' :: '\x60' :: '\x60' ::
      (('j' :: 's' :: 'o' :: 'n' :: '\n' :: '\x7b' :: '"' :: 'a' :: '"' :: ':' :: '1' :: '\x7d' ::
        '\n' :: []) ++ '\x60' :: '\x60' :: '\x60' :: rdropSpace a.data) from by simp [badSeq]]
  rw [if_pos (containsSeq_mark _ _)]
  unfold fenceSplit
  rw [fenceSplitGo_no_bt _ _ [] hb2]
  rw [fenceSplitGo_no_bt _ _ [] (by decide)]
  rw [ValidationAi.fencedScan.eq_def]
  simp only [List.reverse_nil, List.nil_append]
  rw [show ValidationAi.fencedTry
      ('j' :: 's' :: 'o' :: 'n' :: '\n' :: '\x7b' :: '"' :: 'a' :: '"' :: ':' :: '1' :: '\x7d' ::
        '\n' :: []) = some (Json.obj [("a", Json.num false 1 [] none)]) from rfl]

theorem claim_c7_witness :
    ValidationAi.extract
        ("Sure, here you go: " ++ "\x60\x60\x60json\n\x7b\"a\":1\x7d\n\x60\x60\x60" ++
          " Anything else?") =
      Except.ok (Json.obj [("a", Json.num false 1 [] none)]) :=
  claim_c7 "Sure, here you go: " " Anything else?" (by decide)

/-- The unamended C7 is false: prose before the block may itself carry an
earlier fenced JSON object, and the extractor returns that one instead. -/
theorem claim_c7_counterexample :
    ValidationAi.extract
        ("pre \x60\x60\x60json\n\x7b\"z\":9\x7d\n\x60\x60\x60 mid " ++
          "\x60\x60\x60json\n\x7b\"a\":1\x7d\n\x60\x60\x60" ++ " post") =
      Except.ok (Json.obj [("z", Json.num false 9 [] none)]) ∧
    (Except.ok (Json.obj [("z", Json.num false 9 [] none)]) : Except ExtractErr Json) ≠
      Except.ok (Json.obj [("a", Json.num false 1 [] none)]) := by
  constructor
  · rfl
  · intro h
    injection h with h1
    injection h1 with h2
    injection h2 with h3 _
    injection h3 with h4 _
    exact absurd h4 (by decide)
